import Mathlib

/-!
Verification of the xv6-style bucket-sharded buffer cache in src/kernel/bio.c.

The cache state is embedded shallowly: the global `bcache` (slot pool plus
per-bucket singly-linked lists) becomes an explicit `BCache` value, every
operation of bio.c becomes a pure state transformer, and a `panic` in the C
source becomes an `Except.error` carrying the panic message.  Locks have no
observable effect in the sequential model except for the per-slot sleeping
content lock, whose held/free status is part of the state because `bwrite` and
`brelse` test it (`holdingsleep`) and panic on misuse.

`buf.h` and `param.h` are not part of the repository snapshot, so the fields of
`struct buf`, the `hash` function and the constants NBUCKET / NBUF are modelled
from the spec (sections 3 and 4.1): `hash blockno = blockno % M`, with the
bucket count `M` and pool size `N` carried as parameters.
-/

set_option linter.unusedVariables false

namespace Bio

/-- One buffer slot (`struct buf`).  Modelled from the spec (section 3), since
buf.h is not in src: identity fields `dev`/`blockno`, the `valid` flag (0/1),
`refcnt : Nat` ("number of current holders; integer >= 0"), and the held/free
status of the per-slot sleeping content lock.  `content` itself is owned by the
external block device collaborator and carries no information the cache logic
reads, so it is omitted. -/
structure Buf where
  dev : Nat
  blockno : Nat
  valid : Nat
  refcnt : Nat
  lockHeld : Bool
  deriving DecidableEq, Repr

/-- The all-zero buffer slot: the global `bcache` array has C static storage
duration, hence is zero-initialized before `binit` runs. -/
def buf0 : Buf := ⟨0, 0, 0, 0, false⟩

/-- The cache state: the slot pool `bcache.buf` (slots named by their index
`0 .. N-1`) and the NBUCKET bucket lists (the `bcache.head[i].out` chains),
each rendered as the list of slot indices in traversal order from the head. -/
structure BCache where
  bufs : List Buf
  buckets : List (List Nat)
  deriving DecidableEq, Repr

/-- Modelled from the spec: `hash(blockno) -> bucket index in [0, M)` (the
macro lives in the missing param.h/buf.h).  Spec 4.1 requires a fixed
deterministic function of the block number alone, and spec 4.3 describes the
probe sequence as buckets `b+1, b+2, ... (mod M)`, i.e. hashing is residue
mod M. -/
def hash (M x : Nat) : Nat := x % M

/-- bio.c `put` (lines 31-36): push slot `val` at the head of bucket
`hash(key)`. -/
def put (M key val : Nat) (bks : List (List Nat)) : List (List Nat) :=
  bks.set (hash M key) (val :: bks.getD (hash M key) [])

/-- The scan-and-unlink loop of bio.c `remove` (lines 42-55): delete the first
occurrence of `b`, relinking its neighbours; when `b` is not found the loop
falls off the end and the C function returns with the list untouched. -/
def removeFirst (b : Nat) : List Nat → List Nat
  | [] => []
  | e :: rest => if e = b then rest else e :: removeFirst b rest

/-- bio.c `remove` (lines 37-56): unlink slot `b` from the bucket list selected
by `hash(b->blockno)`. -/
def remove (M : Nat) (bufs : List Buf) (bks : List (List Nat)) (b : Nat) :
    List (List Nat) :=
  let h := hash M ((bufs.getD b buf0).blockno)
  bks.set h (removeFirst b (bks.getD h []))

/-- bio.c `binit` (lines 68-91): clear every bucket head, then `put(0, b)` for
each slot in pool order, so every slot lands at the head of bucket `hash 0`.
Slot metadata is all zero from static storage. -/
def binit (M N : Nat) : BCache :=
  { bufs := List.replicate N buf0
  , buckets :=
      (List.range N).foldl (fun bks b => put M 0 b bks) (List.replicate M []) }

/-- The phase-1 match condition of `bget` at slot `j`:
`b->dev == dev && b->blockno == blockno`. -/
def isMatch (bufs : List Buf) (dev blockno j : Nat) : Prop :=
  (bufs.getD j buf0).dev = dev ∧ (bufs.getD j buf0).blockno = blockno

instance (bufs : List Buf) (dev blockno j : Nat) :
    Decidable (isMatch bufs dev blockno j) := by
  unfold isMatch; infer_instance

/-- The phase-1 scan of `bget` (lines 105-112): the first slot in the bucket
list with `b->dev == dev && b->blockno == blockno`. -/
def findMatch (bufs : List Buf) (dev blockno : Nat) : List Nat → Option Nat
  | [] => none
  | j :: rest =>
    if isMatch bufs dev blockno j then some j
    else findMatch bufs dev blockno rest

/-- The free-slot condition of `bget` phases 2 and 3 at slot `j`: the scan
`continue`s past every slot with `b->refcnt != 0`. -/
def isFree (bufs : List Buf) (j : Nat) : Prop :=
  (bufs.getD j buf0).refcnt = 0

instance (bufs : List Buf) (j : Nat) : Decidable (isFree bufs j) := by
  unfold isFree; infer_instance

/-- The free-slot scan of `bget` phases 2 and 3 (lines 115-126 and 138-152):
the first slot in the bucket list with `refcnt == 0`. -/
def findFree (bufs : List Buf) : List Nat → Option Nat
  | [] => none
  | j :: rest =>
    if isFree bufs j then some j else findFree bufs rest

/-- Phase 3 of `bget` (lines 130-155): probe buckets `hash(blockno+i)` for
`i = 1 .. NBUCKET-1`; `panic("no buffer")` if the probe wraps onto the caller's
own bucket; on the first free slot found, `remove` it (still under its old
blockno), rebind its identity, `put` it into bucket `hash(blockno)`, and return
it with the content lock acquired; `panic("bget: no buffers")` if the loop
exhausts every offset. -/
def bgetSteal (M dev blockno : Nat) (s : BCache) :
    List Nat → Except String (Nat × BCache)
  | [] => .error "bget: no buffers"
  | i :: rest =>
    if hash M blockno = hash M (blockno + i) then .error "no buffer"
    else
      match findFree s.bufs (s.buckets.getD (hash M (blockno + i)) []) with
      | some j =>
        let bks1 := remove M s.bufs s.buckets j
        let bufs1 := s.bufs.set j
          { dev := dev, blockno := blockno, valid := 0, refcnt := 1,
            lockHeld := true }
        .ok (j, ⟨bufs1, put M blockno j bks1⟩)
      | none => bgetSteal M dev blockno s rest

/-- bio.c `bget` (lines 96-156): phase 1 hit scan of bucket `hash blockno`
(increment `refcnt`, acquire the content lock), phase 2 same-bucket reuse of a
`refcnt == 0` slot (rebind identity, `valid = 0`, `refcnt = 1`), phase 3
cross-bucket steal.  A returned slot always has its content lock acquired
(`acquiresleep(&b->lock)`). -/
def bget (M dev blockno : Nat) (s : BCache) : Except String (Nat × BCache) :=
  match findMatch s.bufs dev blockno (s.buckets.getD (hash M blockno) []) with
  | some j =>
    let b := s.bufs.getD j buf0
    .ok (j, ⟨s.bufs.set j { b with refcnt := b.refcnt + 1, lockHeld := true },
             s.buckets⟩)
  | none =>
    match findFree s.bufs (s.buckets.getD (hash M blockno) []) with
    | some j =>
      .ok (j, ⟨s.bufs.set j
        { dev := dev, blockno := blockno, valid := 0, refcnt := 1,
          lockHeld := true }, s.buckets⟩)
    | none => bgetSteal M dev blockno s (List.range' 1 (M - 1))

/-- bio.c `bread` (lines 159-170): `bget`, then if the slot is not valid invoke
`virtio_disk_rw(b, 0)` and set `valid = 1`.  The boolean records whether the
block device was invoked. -/
def bread (M dev blockno : Nat) (s : BCache) :
    Except String (Nat × BCache × Bool) :=
  match bget M dev blockno s with
  | .error e => .error e
  | .ok (j, s1) =>
    let b := s1.bufs.getD j buf0
    if b.valid = 0 then
      .ok (j, ⟨s1.bufs.set j { b with valid := 1 }, s1.buckets⟩, true)
    else
      .ok (j, s1, false)

/-- bio.c `bwrite` (lines 173-179): `panic("bwrite")` unless the caller holds
the slot's content lock, otherwise invoke `virtio_disk_rw(b, 1)`.  The cache
state is untouched; the boolean records that the device was invoked. -/
def bwrite (s : BCache) (j : Nat) : Except String (BCache × Bool) :=
  if (s.bufs.getD j buf0).lockHeld = false then .error "bwrite"
  else .ok (s, true)

/-- bio.c `brelse` (lines 183-204): `panic("brelse")` unless the caller holds
the slot's content lock; otherwise `releasesleep`, then under the bucket lock
`b->refcnt--`.  The whole `if (b->refcnt == 0)` body is commented out in the
source, so no list movement happens. -/
def brelse (s : BCache) (j : Nat) : Except String BCache :=
  let b := s.bufs.getD j buf0
  if b.lockHeld = false then .error "brelse"
  else
    .ok ⟨s.bufs.set j { b with lockHeld := false, refcnt := b.refcnt - 1 },
         s.buckets⟩

/-- bio.c `bpin` (lines 206-211): under the bucket lock, `b->refcnt++`. -/
def bpin (s : BCache) (j : Nat) : BCache :=
  let b := s.bufs.getD j buf0
  ⟨s.bufs.set j { b with refcnt := b.refcnt + 1 }, s.buckets⟩

/-- bio.c `bunpin` (lines 213-218): under the bucket lock, `b->refcnt--`. -/
def bunpin (s : BCache) (j : Nat) : BCache :=
  let b := s.bufs.getD j buf0
  ⟨s.bufs.set j { b with refcnt := b.refcnt - 1 }, s.buckets⟩

/-- The cache states reachable, for a configuration of `M` buckets and `N`
slots, from `binit` by completed operations of the consumer-facing surface.
Erroring (panicking) calls produce no new state.  `step_bpin` carries the
protocol precondition of spec 4.5: `pin` is used by collaborators to keep a
*cached, resident* block pinned, i.e. it is only ever applied to a slot with a
live reference. -/
inductive Reachable (M N : Nat) : BCache → Prop
  | init : 0 < M → Reachable M N (binit M N)
  | step_bget : ∀ dev blockno j s s', Reachable M N s →
      bget M dev blockno s = .ok (j, s') → Reachable M N s'
  | step_bread : ∀ dev blockno j s s' r, Reachable M N s →
      bread M dev blockno s = .ok (j, s', r) → Reachable M N s'
  | step_bwrite : ∀ j s s' r, Reachable M N s →
      bwrite s j = .ok (s', r) → Reachable M N s'
  | step_brelse : ∀ j s s', Reachable M N s →
      brelse s j = .ok s' → Reachable M N s'
  | step_bpin : ∀ j s, Reachable M N s →
      (s.bufs.getD j buf0).refcnt ≠ 0 → Reachable M N (bpin s j)
  | step_bunpin : ∀ j s, Reachable M N s → Reachable M N (bunpin s j)

/-! ### List helpers -/

theorem getD_set_self {α : Type} (l : List α) (j : Nat) (b d : α) :
    (l.set j b).getD j d = if j < l.length then b else l.getD j d := by
  induction l generalizing j with
  | nil => simp
  | cons x xs ih =>
    cases j with
    | zero => simp
    | succ j => simpa [Nat.succ_lt_succ_iff] using ih j

theorem getD_set_ne {α : Type} (l : List α) {j k : Nat} (b : α) (d : α)
    (h : k ≠ j) : (l.set j b).getD k d = l.getD k d := by
  induction l generalizing j k with
  | nil => simp
  | cons x xs ih =>
    cases j with
    | zero => cases k with
      | zero => exact absurd rfl h
      | succ k => simp
    | succ j =>
      cases k with
      | zero => simp
      | succ k => simpa using ih (fun hk => h (by omega))

theorem set_getD_self {α : Type} (l : List α) (h : Nat) (d : α) :
    l.set h (l.getD h d) = l := by
  induction l generalizing h with
  | nil => simp
  | cons x xs ih =>
    cases h with
    | zero => simp
    | succ h => simpa using ih h

theorem getD_replicate {α : Type} (n i : Nat) (x : α) :
    (List.replicate n x).getD i x = x := by
  induction n generalizing i with
  | zero => simp
  | succ n ih =>
    cases i with
    | zero => simp [List.replicate]
    | succ i => simp only [List.replicate, List.getD_cons_succ]; exact ih i

theorem pairwise_imp_mem {α : Type} {R S : α → α → Prop} :
    ∀ {l : List α}, (∀ a b, a ∈ l → b ∈ l → R a b → S a b) →
      l.Pairwise R → l.Pairwise S
  | [], _, _ => List.Pairwise.nil
  | x :: xs, h, hp => by
    rcases List.pairwise_cons.1 hp with ⟨hx, hxs⟩
    exact List.pairwise_cons.2
      ⟨fun b hb => h x b (by simp) (by simp [hb]) (hx b hb),
       pairwise_imp_mem (fun a b ha hb => h a b (by simp [ha]) (by simp [hb])) hxs⟩

/-! ### Scan-loop characterizations -/

theorem isMatch_congr {bufs bufs' : List Buf} {dev blockno : Nat}
    (h : ∀ a, (bufs'.getD a buf0).dev = (bufs.getD a buf0).dev ∧
      (bufs'.getD a buf0).blockno = (bufs.getD a buf0).blockno) (a : Nat) :
    isMatch bufs' dev blockno a ↔ isMatch bufs dev blockno a := by
  unfold isMatch
  rw [(h a).1, (h a).2]

theorem findMatch_eq_none {bufs : List Buf} {dev blockno : Nat} :
    ∀ {l : List Nat}, findMatch bufs dev blockno l = none →
      ∀ a ∈ l, ¬ isMatch bufs dev blockno a := by
  intro l
  induction l with
  | nil => intro _ a ha; simp at ha
  | cons x xs ih =>
    intro h a ha
    by_cases hx : isMatch bufs dev blockno x
    · simp [findMatch, hx] at h
    · rcases List.mem_cons.1 ha with rfl | ha'
      · exact hx
      · exact ih (by simpa [findMatch, hx] using h) a ha'

theorem findMatch_eq_some {bufs : List Buf} {dev blockno : Nat} :
    ∀ {l : List Nat} {j : Nat}, findMatch bufs dev blockno l = some j →
      ∃ l1 l2, l = l1 ++ j :: l2 ∧ isMatch bufs dev blockno j ∧
        ∀ a ∈ l1, ¬ isMatch bufs dev blockno a := by
  intro l
  induction l with
  | nil => intro j h; simp [findMatch] at h
  | cons x xs ih =>
    intro j h
    by_cases hx : isMatch bufs dev blockno x
    · have hj : x = j := by simpa [findMatch, hx] using h
      subst hj
      exact ⟨[], xs, rfl, hx, by simp⟩
    · rcases ih (by simpa [findMatch, hx] using h) with ⟨l1, l2, rfl, hm, hl1⟩
      refine ⟨x :: l1, l2, rfl, hm, ?_⟩
      intro a ha
      rcases List.mem_cons.1 ha with rfl | ha'
      · exact hx
      · exact hl1 a ha'

theorem findMatch_append_of {bufs : List Buf} {dev blockno j : Nat}
    {l1 l2 : List Nat}
    (h1 : ∀ a ∈ l1, a ≠ j → ¬ isMatch bufs dev blockno a)
    (hj : isMatch bufs dev blockno j) :
    findMatch bufs dev blockno (l1 ++ j :: l2) = some j := by
  induction l1 with
  | nil => simp [findMatch, hj]
  | cons x xs ih =>
    by_cases hx : x = j
    · subst hx; simp [findMatch, hj]
    · have hnm : ¬ isMatch bufs dev blockno x := h1 x (by simp) hx
      simp only [List.cons_append, findMatch, if_neg hnm]
      exact ih (fun a ha hne => h1 a (by simp [ha]) hne)

theorem findMatch_congr {bufs bufs' : List Buf} {dev blockno : Nat}
    (h : ∀ a, (bufs'.getD a buf0).dev = (bufs.getD a buf0).dev ∧
      (bufs'.getD a buf0).blockno = (bufs.getD a buf0).blockno) :
    ∀ l : List Nat, findMatch bufs' dev blockno l = findMatch bufs dev blockno l := by
  intro l
  induction l with
  | nil => rfl
  | cons x xs ih =>
    by_cases hx : isMatch bufs dev blockno x
    · simp [findMatch, hx, (isMatch_congr h x).2 hx]
    · have hx' : ¬ isMatch bufs' dev blockno x := fun hc => hx ((isMatch_congr h x).1 hc)
      simp [findMatch, hx, hx', ih]

theorem findFree_eq_none {bufs : List Buf} :
    ∀ {l : List Nat}, findFree bufs l = none →
      ∀ a ∈ l, ¬ isFree bufs a := by
  intro l
  induction l with
  | nil => intro _ a ha; simp at ha
  | cons x xs ih =>
    intro h a ha
    by_cases hx : isFree bufs x
    · simp [findFree, hx] at h
    · rcases List.mem_cons.1 ha with rfl | ha'
      · exact hx
      · exact ih (by simpa [findFree, hx] using h) a ha'

theorem findFree_eq_some {bufs : List Buf} :
    ∀ {l : List Nat} {j : Nat}, findFree bufs l = some j →
      ∃ l1 l2, l = l1 ++ j :: l2 ∧ isFree bufs j ∧
        ∀ a ∈ l1, ¬ isFree bufs a := by
  intro l
  induction l with
  | nil => intro j h; simp [findFree] at h
  | cons x xs ih =>
    intro j h
    by_cases hx : isFree bufs x
    · have hj : x = j := by simpa [findFree, hx] using h
      subst hj
      exact ⟨[], xs, rfl, hx, by simp⟩
    · rcases ih (by simpa [findFree, hx] using h) with ⟨l1, l2, rfl, hf, hl1⟩
      refine ⟨x :: l1, l2, rfl, hf, ?_⟩
      intro a ha
      rcases List.mem_cons.1 ha with rfl | ha'
      · exact hx
      · exact hl1 a ha'

/-! ### removeFirst characterizations -/

theorem removeFirst_of_not_mem {b : Nat} :
    ∀ {l : List Nat}, b ∉ l → removeFirst b l = l := by
  intro l
  induction l with
  | nil => intro _; rfl
  | cons x xs ih =>
    intro h
    have hx : x ≠ b := fun he => h (by simp [he])
    simp only [removeFirst, if_neg hx]
    rw [ih (fun hm => h (by simp [hm]))]

theorem removeFirst_append {b : Nat} {l1 l2 : List Nat} (h : b ∉ l1) :
    removeFirst b (l1 ++ b :: l2) = l1 ++ l2 := by
  induction l1 with
  | nil => simp [removeFirst]
  | cons x xs ih =>
    have hx : x ≠ b := fun he => h (by simp [he])
    simp only [List.cons_append, removeFirst, if_neg hx, List.append_eq,
      ih (fun hm => h (by simp [hm]))]

theorem count_removeFirst_ne {b k : Nat} (h : k ≠ b) :
    ∀ l : List Nat, (removeFirst b l).count k = l.count k := by
  intro l
  induction l with
  | nil => rfl
  | cons x xs ih =>
    by_cases hx : x = b
    · subst hx; simp [removeFirst, List.count_cons, h]
    · simp [removeFirst, hx, List.count_cons, ih]

theorem count_cons_ne {k j : Nat} (h : k ≠ j) (l : List Nat) :
    (j :: l).count k = l.count k := by
  simp [List.count_cons, Ne.symm h]

theorem removeFirst_sublist (b : Nat) :
    ∀ l : List Nat, List.Sublist (removeFirst b l) l := by
  intro l
  induction l with
  | nil => simp [removeFirst]
  | cons x xs ih =>
    by_cases hx : x = b
    · subst hx
      simp only [removeFirst, if_pos rfl]
      exact List.sublist_cons_self x xs
    · simpa [removeFirst, hx] using List.Sublist.cons₂ x ih

/-! ### The reachability invariant -/

/-- Live-first ordering along one bucket list: whenever slot `b` has a live
reference, no slot standing earlier in the same list carries the same
(device, block number) identity.  Phase 1 of `bget` increments the first
identity match it meets, so this is what routes a hit to the live slot. -/
def LiveP (bufs : List Buf) (a b : Nat) : Prop :=
  (bufs.getD b buf0).refcnt ≠ 0 →
  ¬((bufs.getD a buf0).dev = (bufs.getD b buf0).dev ∧
    (bufs.getD a buf0).blockno = (bufs.getD b buf0).blockno)

/-- The state invariant maintained by every completed cache operation: bucket
table shape, exactly-once bucket membership placed by `hash blockno`, and the
live-first ordering within each bucket list. -/
structure Inv (M N : Nat) (s : BCache) : Prop where
  hM : 0 < M
  blen : s.bufs.length = N
  klen : s.buckets.length = M
  entries_lt : ∀ i, ∀ j ∈ s.buckets.getD i [], j < N
  home : ∀ j, j < N →
    (s.buckets.getD (hash M ((s.bufs.getD j buf0).blockno)) []).count j = 1
  away : ∀ j i, j < N → i ≠ hash M ((s.bufs.getD j buf0).blockno) →
    j ∉ s.buckets.getD i []
  liveFirst : ∀ i, (s.buckets.getD i []).Pairwise (LiveP s.bufs)

theorem hash_lt {M : Nat} (hM : 0 < M) (x : Nat) : hash M x < M :=
  Nat.mod_lt x hM

theorem Inv.mem_home {M N : Nat} {s : BCache} (hs : Inv M N s) {j : Nat}
    (hj : j < N) :
    j ∈ s.buckets.getD (hash M ((s.bufs.getD j buf0).blockno)) [] := by
  by_contra hmem
  have := hs.home j hj
  rw [List.count_eq_zero.2 hmem] at this
  exact Nat.zero_ne_one this

theorem Inv.bucket_of_mem {M N : Nat} {s : BCache} (hs : Inv M N s)
    {i j : Nat} (hmem : j ∈ s.buckets.getD i []) :
    i = hash M ((s.bufs.getD j buf0).blockno) := by
  by_contra hne
  exact hs.away j i (hs.entries_lt i j hmem) hne hmem

/-- A slot update that keeps the identity fields and does not revive a dead
slot preserves the invariant: this covers `brelse`, `bpin` (on a live slot),
`bunpin`, the `valid` flag update of `bread`, and the refcount bump of a
phase-1 hit is NOT covered (it may revive a dead slot and is handled via the
first-match argument). -/
theorem inv_update_meta {M N : Nat} {s : BCache} (hs : Inv M N s) (j : Nat)
    (b' : Buf) (hdev : b'.dev = (s.bufs.getD j buf0).dev)
    (hblk : b'.blockno = (s.bufs.getD j buf0).blockno)
    (href : b'.refcnt ≠ 0 → (s.bufs.getD j buf0).refcnt ≠ 0) :
    Inv M N ⟨s.bufs.set j b', s.buckets⟩ := by
  have hkey : ∀ k, ((s.bufs.set j b').getD k buf0).dev = (s.bufs.getD k buf0).dev ∧
      ((s.bufs.set j b').getD k buf0).blockno = (s.bufs.getD k buf0).blockno := by
    intro k
    by_cases hk : k = j
    · subst hk
      rw [getD_set_self]
      split
      · exact ⟨hdev, hblk⟩
      · exact ⟨rfl, rfl⟩
    · rw [getD_set_ne _ _ _ hk]
      exact ⟨rfl, rfl⟩
  have hrefk : ∀ k, ((s.bufs.set j b').getD k buf0).refcnt ≠ 0 →
      (s.bufs.getD k buf0).refcnt ≠ 0 := by
    intro k
    by_cases hk : k = j
    · subst hk
      rw [getD_set_self]
      split
      · exact href
      · exact id
    · rw [getD_set_ne _ _ _ hk]
      exact id
  refine ⟨hs.hM, by simpa using hs.blen, hs.klen, hs.entries_lt, ?_, ?_, ?_⟩
  · intro k hk
    rw [(hkey k).2]
    exact hs.home k hk
  · intro k i hk hi
    rw [(hkey k).2] at hi
    exact hs.away k i hk hi
  · intro i
    refine pairwise_imp_mem (fun a b _ _ hab => ?_) (hs.liveFirst i)
    intro hb
    rw [(hkey a).1, (hkey a).2, (hkey b).1, (hkey b).2]
    exact hab (hrefk b hb)

theorem liveP_of_ne {bufs : List Buf} {b' : Buf} {j a b : Nat} (ha : a ≠ j)
    (hb : b ≠ j) (h : LiveP bufs a b) : LiveP (bufs.set j b') a b := by
  unfold LiveP at h ⊢
  rw [getD_set_ne _ _ _ ha, getD_set_ne _ _ _ hb]
  exact h

theorem mem_count_one_split {l : List Nat} {j : Nat} (hm : j ∈ l)
    (hc : l.count j = 1) : ∃ l1 l2, l = l1 ++ j :: l2 ∧ j ∉ l1 ∧ j ∉ l2 := by
  rcases List.append_of_mem hm with ⟨l1, l2, rfl⟩
  rw [List.count_append, List.count_cons_self] at hc
  have h0 : l1.count j = 0 ∧ l2.count j = 0 := by omega
  exact ⟨l1, l2, rfl, List.count_eq_zero.1 h0.1, List.count_eq_zero.1 h0.2⟩

theorem pairwise_of_all {α : Type} {R : α → α → Prop} (h : ∀ a b, R a b) :
    ∀ l : List α, l.Pairwise R
  | [] => List.Pairwise.nil
  | x :: xs => List.pairwise_cons.2 ⟨fun b _ => h x b, pairwise_of_all h xs⟩

theorem getD_set_ident {bufs : List Buf} {j : Nat} {b' : Buf}
    (hdev : b'.dev = (bufs.getD j buf0).dev)
    (hblk : b'.blockno = (bufs.getD j buf0).blockno) (k : Nat) :
    ((bufs.set j b').getD k buf0).dev = (bufs.getD k buf0).dev ∧
    ((bufs.set j b').getD k buf0).blockno = (bufs.getD k buf0).blockno := by
  by_cases hk : k = j
  · subst hk
    rw [getD_set_self]
    split
    · exact ⟨hdev, hblk⟩
    · exact ⟨rfl, rfl⟩
  · rw [getD_set_ne _ _ _ hk]
    exact ⟨rfl, rfl⟩

/-- Phase-1 preservation: any metadata update of the *first identity match* in
its bucket that keeps the identity fields preserves the invariant.  (The hit
increments `refcnt` and may revive an idle slot, which is sound exactly
because phase 1 stops at the first match.) -/
theorem inv_bget_hit {M N dev blockno j : Nat} {s : BCache} (hs : Inv M N s)
    (hf : findMatch s.bufs dev blockno
      (s.buckets.getD (hash M blockno) []) = some j)
    (b' : Buf) (hdev : b'.dev = (s.bufs.getD j buf0).dev)
    (hblk : b'.blockno = (s.bufs.getD j buf0).blockno) :
    Inv M N ⟨s.bufs.set j b', s.buckets⟩ := by
  rcases findMatch_eq_some hf with ⟨l1, l2, hdec, hm, hl1⟩
  have hjmem : j ∈ s.buckets.getD (hash M blockno) [] := by
    rw [hdec]
    exact List.mem_append_right _ (List.mem_cons_self _ _)
  have hjN : j < N := hs.entries_lt _ j hjmem
  have hjlen : j < s.bufs.length := by rw [hs.blen]; exact hjN
  have hjhome : hash M ((s.bufs.getD j buf0).blockno) = hash M blockno := by
    rw [hm.2]
  have hcount : (l1 ++ j :: l2).count j = 1 := by
    rw [← hdec, ← hjhome]
    exact hs.home j hjN
  rw [List.count_append, List.count_cons_self] at hcount
  have hnl1 : j ∉ l1 := List.count_eq_zero.1 (by omega)
  have hnl2 : j ∉ l2 := List.count_eq_zero.1 (by omega)
  have hkey : ∀ k, ((s.bufs.set j b').getD k buf0).dev =
        (s.bufs.getD k buf0).dev ∧
      ((s.bufs.set j b').getD k buf0).blockno =
        (s.bufs.getD k buf0).blockno :=
    getD_set_ident hdev hblk
  refine ⟨hs.hM, by simpa using hs.blen, hs.klen, hs.entries_lt, ?_, ?_, ?_⟩
  · intro k hk
    rw [(hkey k).2]
    exact hs.home k hk
  · intro k i hk hi
    rw [(hkey k).2] at hi
    exact hs.away k i hk hi
  · intro i
    by_cases hi : i = hash M blockno
    · subst hi
      rw [hdec]
      have old := hs.liveFirst (hash M blockno)
      rw [hdec] at old
      rcases List.pairwise_append.1 old with ⟨P1, Pj2, cross⟩
      rcases List.pairwise_cons.1 Pj2 with ⟨hj_l2, P2⟩
      refine List.pairwise_append.2 ⟨?_, ?_, ?_⟩
      · refine pairwise_imp_mem (fun a b hal hbl hab => ?_) P1
        exact liveP_of_ne (fun he => hnl1 (he ▸ hal)) (fun he => hnl1 (he ▸ hbl)) hab
      · refine List.pairwise_cons.2 ⟨?_, ?_⟩
        · intro b hb
          have hbj : b ≠ j := fun he => hnl2 (he ▸ hb)
          unfold LiveP
          rw [getD_set_ne _ _ _ hbj, getD_set_self, if_pos hjlen, hdev, hblk]
          exact hj_l2 b hb
        · refine pairwise_imp_mem (fun a b hal hbl hab => ?_) P2
          exact liveP_of_ne (fun he => hnl2 (he ▸ hal)) (fun he => hnl2 (he ▸ hbl)) hab
      · intro a ha b hb
        have haj : a ≠ j := fun he => hnl1 (he ▸ ha)
        rcases List.mem_cons.1 hb with rfl | hb2
        · unfold LiveP
          rw [getD_set_ne _ _ _ haj, getD_set_self, if_pos hjlen, hdev, hblk]
          intro _
          rw [hm.1, hm.2]
          exact hl1 a ha
        · have hbj : b ≠ j := fun he => hnl2 (he ▸ hb2)
          exact liveP_of_ne haj hbj (cross a ha b hb)
    · have hnot : j ∉ s.buckets.getD i [] := by
        refine hs.away j i hjN ?_
        rw [hjhome]
        exact hi
      refine pairwise_imp_mem (fun a b hal hbl hab => ?_) (hs.liveFirst i)
      exact liveP_of_ne (fun he => hnot (he ▸ hal)) (fun he => hnot (he ▸ hbl)) hab

/-- Phase-2 preservation: rebinding a free slot of the target bucket to the
requested identity (`valid = 0`, `refcnt = 1`) preserves the invariant, given
that phase 1 found no identity match in that bucket. -/
theorem inv_bget_reuse {M N dev blockno j : Nat} {s : BCache} (hs : Inv M N s)
    (hnm : findMatch s.bufs dev blockno
      (s.buckets.getD (hash M blockno) []) = none)
    (hff : findFree s.bufs (s.buckets.getD (hash M blockno) []) = some j) :
    Inv M N ⟨s.bufs.set j ⟨dev, blockno, 0, 1, true⟩, s.buckets⟩ := by
  have hnomatch := findMatch_eq_none hnm
  have hjmem : j ∈ s.buckets.getD (hash M blockno) [] := by
    rcases findFree_eq_some hff with ⟨f1, f2, hdec, _, _⟩
    rw [hdec]
    exact List.mem_append_right _ (List.mem_cons_self _ _)
  have hjN : j < N := hs.entries_lt _ j hjmem
  have hjlen : j < s.bufs.length := by rw [hs.blen]; exact hjN
  have hjhome : hash M ((s.bufs.getD j buf0).blockno) = hash M blockno :=
    (hs.bucket_of_mem hjmem).symm
  have hcount : (s.buckets.getD (hash M blockno) []).count j = 1 := by
    rw [← hjhome]
    exact hs.home j hjN
  rcases mem_count_one_split hjmem hcount with ⟨l1, l2, hdec, hnl1, hnl2⟩
  have hgj : (s.bufs.set j ⟨dev, blockno, 0, 1, true⟩).getD j buf0 =
      ⟨dev, blockno, 0, 1, true⟩ := by
    rw [getD_set_self, if_pos hjlen]
  refine ⟨hs.hM, by simpa using hs.blen, hs.klen, hs.entries_lt, ?_, ?_, ?_⟩
  · intro k hk
    by_cases hkj : k = j
    · subst hkj
      rw [hgj]
      exact hcount
    · rw [getD_set_ne _ _ _ hkj]
      exact hs.home k hk
  · intro k i hk hi
    by_cases hkj : k = j
    · subst hkj
      rw [hgj] at hi
      refine hs.away k i hk ?_
      rw [hjhome]
      exact hi
    · rw [getD_set_ne _ _ _ hkj] at hi
      exact hs.away k i hk hi
  · intro i
    by_cases hi : i = hash M blockno
    · subst hi
      rw [hdec]
      have old := hs.liveFirst (hash M blockno)
      rw [hdec] at old
      rcases List.pairwise_append.1 old with ⟨P1, Pj2, cross⟩
      rcases List.pairwise_cons.1 Pj2 with ⟨hj_l2, P2⟩
      refine List.pairwise_append.2 ⟨?_, ?_, ?_⟩
      · refine pairwise_imp_mem (fun a b hal hbl hab => ?_) P1
        exact liveP_of_ne (fun he => hnl1 (he ▸ hal)) (fun he => hnl1 (he ▸ hbl)) hab
      · refine List.pairwise_cons.2 ⟨?_, ?_⟩
        · intro b hb
          have hbj : b ≠ j := fun he => hnl2 (he ▸ hb)
          have hbmem : b ∈ s.buckets.getD (hash M blockno) [] := by
            rw [hdec]
            exact List.mem_append_right _ (List.mem_cons_of_mem _ hb)
          unfold LiveP
          rw [getD_set_ne _ _ _ hbj, hgj]
          intro _ hcontra
          exact hnomatch b hbmem ⟨hcontra.1.symm, hcontra.2.symm⟩
        · refine pairwise_imp_mem (fun a b hal hbl hab => ?_) P2
          exact liveP_of_ne (fun he => hnl2 (he ▸ hal)) (fun he => hnl2 (he ▸ hbl)) hab
      · intro a ha b hb
        have haj : a ≠ j := fun he => hnl1 (he ▸ ha)
        have hamem : a ∈ s.buckets.getD (hash M blockno) [] := by
          rw [hdec]
          exact List.mem_append_left _ ha
        rcases List.mem_cons.1 hb with rfl | hb2
        · unfold LiveP
          rw [getD_set_ne _ _ _ haj, hgj]
          intro _ hcontra
          exact hnomatch a hamem ⟨hcontra.1, hcontra.2⟩
        · have hbj : b ≠ j := fun he => hnl2 (he ▸ hb2)
          exact liveP_of_ne haj hbj (cross a ha b hb)
    · have hnot : j ∉ s.buckets.getD i [] := by
        refine hs.away j i hjN ?_
        rw [hjhome]
        exact hi
      refine pairwise_imp_mem (fun a b hal hbl hab => ?_) (hs.liveFirst i)
      exact liveP_of_ne (fun he => hnot (he ▸ hal)) (fun he => hnot (he ▸ hbl)) hab

/-- Phase-3 preservation: stealing a free slot from a foreign bucket `g`
(unlink under its old identity, rebind, reinsert at the head of the target
bucket) preserves the invariant, given that phase 1 found no identity match in
the target bucket. -/
theorem inv_bget_steal {M N dev blockno g j : Nat} {s : BCache} (hs : Inv M N s)
    (hnm : findMatch s.bufs dev blockno
      (s.buckets.getD (hash M blockno) []) = none)
    (hgne : hash M blockno ≠ g)
    (hff : findFree s.bufs (s.buckets.getD g []) = some j) :
    Inv M N ⟨s.bufs.set j ⟨dev, blockno, 0, 1, true⟩,
      put M blockno j (remove M s.bufs s.buckets j)⟩ := by
  have hnomatch := findMatch_eq_none hnm
  have hjmem : j ∈ s.buckets.getD g [] := by
    rcases findFree_eq_some hff with ⟨f1, f2, hd, _, _⟩
    rw [hd]
    exact List.mem_append_right _ (List.mem_cons_self _ _)
  have hjN : j < N := hs.entries_lt _ j hjmem
  have hjlen : j < s.bufs.length := by rw [hs.blen]; exact hjN
  have hjhome : hash M ((s.bufs.getD j buf0).blockno) = g :=
    (hs.bucket_of_mem hjmem).symm
  have hcntg : (s.buckets.getD g []).count j = 1 := by
    rw [← hjhome]
    exact hs.home j hjN
  rcases mem_count_one_split hjmem hcntg with ⟨g1, g2, hdec, hnl1, hnl2⟩
  have hnotg12 : j ∉ g1 ++ g2 := by
    intro hmem
    rcases List.mem_append.1 hmem with h1 | h2
    · exact hnl1 h1
    · exact hnl2 h2
  have hsubg : ∀ a, a ∈ g1 ++ g2 → a ∈ s.buckets.getD g [] := by
    intro a ha
    rw [hdec]
    rcases List.mem_append.1 ha with h1 | h2
    · exact List.mem_append_left _ h1
    · exact List.mem_append_right _ (List.mem_cons_of_mem _ h2)
  have hjnotlh : j ∉ s.buckets.getD (hash M blockno) [] := by
    refine hs.away j _ hjN ?_
    rw [hjhome]
    exact hgne
  have hglt : g < M := by
    rw [← hjhome]
    exact hash_lt hs.hM _
  have hhlt : hash M blockno < M := hash_lt hs.hM blockno
  have hrem : remove M s.bufs s.buckets j = s.buckets.set g (g1 ++ g2) := by
    simp only [remove]
    rw [hjhome, hdec, removeFirst_append hnl1]
  have hput : put M blockno j (remove M s.bufs s.buckets j) =
      (s.buckets.set g (g1 ++ g2)).set (hash M blockno)
        (j :: s.buckets.getD (hash M blockno) []) := by
    rw [hrem]
    simp only [put]
    rw [getD_set_ne _ _ _ hgne]
  have hlen1 : (s.buckets.set g (g1 ++ g2)).length = M := by
    rw [List.length_set]
    exact hs.klen
  have hfinh : (put M blockno j (remove M s.bufs s.buckets j)).getD
      (hash M blockno) [] = j :: s.buckets.getD (hash M blockno) [] := by
    rw [hput, getD_set_self, hlen1, if_pos hhlt]
  have hfing : (put M blockno j (remove M s.bufs s.buckets j)).getD g [] =
      g1 ++ g2 := by
    rw [hput, getD_set_ne _ _ _ (fun he => hgne he.symm), getD_set_self,
      hs.klen, if_pos hglt]
  have hfini : ∀ i, i ≠ hash M blockno → i ≠ g →
      (put M blockno j (remove M s.bufs s.buckets j)).getD i [] =
        s.buckets.getD i [] := by
    intro i hih hig
    rw [hput, getD_set_ne _ _ _ hih, getD_set_ne _ _ _ hig]
  have hgj : (s.bufs.set j ⟨dev, blockno, 0, 1, true⟩).getD j buf0 =
      ⟨dev, blockno, 0, 1, true⟩ := by
    rw [getD_set_self, if_pos hjlen]
  refine ⟨hs.hM, by simpa using hs.blen, ?_, ?_, ?_, ?_, ?_⟩
  · rw [hput, List.length_set, List.length_set]
    exact hs.klen
  · intro i k hk
    by_cases hih : i = hash M blockno
    · subst hih
      rw [hfinh] at hk
      rcases List.mem_cons.1 hk with rfl | hk2
      · exact hjN
      · exact hs.entries_lt _ k hk2
    · by_cases hig : i = g
      · subst hig
        rw [hfing] at hk
        exact hs.entries_lt _ k (hsubg k hk)
      · rw [hfini i hih hig] at hk
        exact hs.entries_lt _ k hk
  · intro k hk
    by_cases hkj : k = j
    · subst hkj
      rw [hgj]
      show ((put M blockno k (remove M s.bufs s.buckets k)).getD
        (hash M blockno) []).count k = 1
      rw [hfinh, List.count_cons_self, List.count_eq_zero.2 hjnotlh]
    · rw [getD_set_ne _ _ _ hkj]
      by_cases hkh : hash M ((s.bufs.getD k buf0).blockno) = hash M blockno
      · rw [hkh, hfinh, count_cons_ne hkj, ← hkh]
        exact hs.home k hk
      · by_cases hkg : hash M ((s.bufs.getD k buf0).blockno) = g
        · rw [hkg, hfing]
          have hce : (g1 ++ g2).count k = (s.buckets.getD g []).count k := by
            rw [hdec, List.count_append, List.count_append, count_cons_ne hkj]
          rw [hce, ← hkg]
          exact hs.home k hk
        · rw [hfini _ hkh hkg]
          exact hs.home k hk
  · intro k i hk hi
    by_cases hkj : k = j
    · subst hkj
      rw [hgj] at hi
      have hi2 : i ≠ hash M blockno := hi
      by_cases hig : i = g
      · subst hig
        rw [hfing]
        exact hnotg12
      · rw [hfini i hi2 hig]
        refine hs.away k i hk ?_
        rw [hjhome]
        exact hig
    · rw [getD_set_ne _ _ _ hkj] at hi
      by_cases hih : i = hash M blockno
      · subst hih
        rw [hfinh]
        intro hmem
        rcases List.mem_cons.1 hmem with he | hk2
        · exact hkj he
        · exact hs.away k _ hk hi hk2
      · by_cases hig : i = g
        · subst hig
          rw [hfing]
          intro hmem
          exact hs.away k i hk hi (hsubg k hmem)
        · rw [hfini i hih hig]
          exact hs.away k i hk hi
  · intro i
    by_cases hih : i = hash M blockno
    · subst hih
      rw [hfinh]
      refine List.pairwise_cons.2 ⟨?_, ?_⟩
      · intro b hb
        have hbj : b ≠ j := fun he => hjnotlh (he ▸ hb)
        unfold LiveP
        rw [getD_set_ne _ _ _ hbj, hgj]
        intro _ hcontra
        exact hnomatch b hb ⟨hcontra.1.symm, hcontra.2.symm⟩
      · refine pairwise_imp_mem (fun a b hal hbl hab => ?_)
          (hs.liveFirst (hash M blockno))
        exact liveP_of_ne (fun he => hjnotlh (he ▸ hal))
          (fun he => hjnotlh (he ▸ hbl)) hab
    · by_cases hig : i = g
      · subst hig
        rw [hfing]
        have hsb : List.Sublist (g1 ++ g2) (s.buckets.getD i []) := by
          rw [hdec]
          exact (List.sublist_cons_self j g2).append_left g1
        have hpw := (hs.liveFirst i).sublist hsb
        refine pairwise_imp_mem (fun a b hal hbl hab => ?_) hpw
        exact liveP_of_ne (fun he => hnotg12 (he ▸ hal))
          (fun he => hnotg12 (he ▸ hbl)) hab
      · rw [hfini i hih hig]
        have hnot : j ∉ s.buckets.getD i [] := by
          refine hs.away j i hjN ?_
          rw [hjhome]
          exact hig
        refine pairwise_imp_mem (fun a b hal hbl hab => ?_) (hs.liveFirst i)
        exact liveP_of_ne (fun he => hnot (he ▸ hal))
          (fun he => hnot (he ▸ hbl)) hab

theorem inv_brelse {M N : Nat} {s s' : BCache} {j : Nat} (hs : Inv M N s)
    (h : brelse s j = .ok s') : Inv M N s' := by
  simp only [brelse] at h
  split at h
  · exact absurd h (by simp)
  · have hs' := inv_update_meta hs j
      ⟨(s.bufs.getD j buf0).dev, (s.bufs.getD j buf0).blockno,
        (s.bufs.getD j buf0).valid, (s.bufs.getD j buf0).refcnt - 1, false⟩
      rfl rfl
      (fun hne => by
        have h2 : (s.bufs.getD j buf0).refcnt - 1 ≠ 0 := hne
        omega)
    have he : s' = ⟨s.bufs.set j
        ⟨(s.bufs.getD j buf0).dev, (s.bufs.getD j buf0).blockno,
          (s.bufs.getD j buf0).valid, (s.bufs.getD j buf0).refcnt - 1, false⟩,
        s.buckets⟩ := by
      cases h; rfl
    rw [he]
    exact hs'

theorem inv_bpin {M N : Nat} {s : BCache} {j : Nat} (hs : Inv M N s)
    (hr : (s.bufs.getD j buf0).refcnt ≠ 0) : Inv M N (bpin s j) :=
  inv_update_meta hs j _ rfl rfl (fun _ => hr)

theorem inv_bunpin {M N : Nat} {s : BCache} {j : Nat} (hs : Inv M N s) :
    Inv M N (bunpin s j) :=
  inv_update_meta hs j _ rfl rfl
    (fun hne => by
      have h2 : (s.bufs.getD j buf0).refcnt - 1 ≠ 0 := hne
      omega)

theorem inv_bgetSteal {M N dev blockno : Nat} {s : BCache} (hs : Inv M N s)
    (hnm : findMatch s.bufs dev blockno
      (s.buckets.getD (hash M blockno) []) = none) :
    ∀ {j : Nat} {s' : BCache} (is : List Nat),
      bgetSteal M dev blockno s is = .ok (j, s') → Inv M N s' := by
  intro j s' is
  induction is with
  | nil => intro h; simp [bgetSteal] at h
  | cons i rest ih =>
    intro h
    simp only [bgetSteal] at h
    by_cases hcol : hash M blockno = hash M (blockno + i)
    · rw [if_pos hcol] at h
      simp at h
    · rw [if_neg hcol] at h
      cases hf : findFree s.bufs (s.buckets.getD (hash M (blockno + i)) []) with
      | some j0 =>
        rw [hf] at h
        simp only [Except.ok.injEq, Prod.mk.injEq] at h
        obtain ⟨rfl, rfl⟩ := h
        exact inv_bget_steal hs hnm hcol hf
      | none =>
        rw [hf] at h
        exact ih h

theorem inv_bget {M N dev blockno j : Nat} {s s' : BCache} (hs : Inv M N s)
    (h : bget M dev blockno s = .ok (j, s')) : Inv M N s' := by
  unfold bget at h
  cases hm : findMatch s.bufs dev blockno (s.buckets.getD (hash M blockno) []) with
  | some j0 =>
    rw [hm] at h
    simp only [Except.ok.injEq, Prod.mk.injEq] at h
    obtain ⟨rfl, rfl⟩ := h
    exact inv_bget_hit hs hm _ rfl rfl
  | none =>
    rw [hm] at h
    cases hf : findFree s.bufs (s.buckets.getD (hash M blockno) []) with
    | some j0 =>
      rw [hf] at h
      simp only [Except.ok.injEq, Prod.mk.injEq] at h
      obtain ⟨rfl, rfl⟩ := h
      exact inv_bget_reuse hs hm hf
    | none =>
      rw [hf] at h
      exact inv_bgetSteal hs hm _ h

theorem inv_bread {M N dev blockno j : Nat} {s s' : BCache} {r : Bool}
    (hs : Inv M N s) (h : bread M dev blockno s = .ok (j, s', r)) :
    Inv M N s' := by
  simp only [bread] at h
  split at h
  · simp at h
  · rename_i j0 s1 hbg
    have hs1 : Inv M N s1 := inv_bget hs hbg
    split at h
    · simp only [Except.ok.injEq, Prod.mk.injEq] at h
      obtain ⟨rfl, rfl, rfl⟩ := h
      exact inv_update_meta hs1 j0 _ rfl rfl (fun x => x)
    · simp only [Except.ok.injEq, Prod.mk.injEq] at h
      obtain ⟨rfl, rfl, rfl⟩ := h
      exact hs1

theorem inv_bwrite {M N : Nat} {s s' : BCache} {j : Nat} {r : Bool}
    (hs : Inv M N s) (h : bwrite s j = .ok (s', r)) : Inv M N s' := by
  unfold bwrite at h
  split at h
  · simp at h
  · simp only [Except.ok.injEq, Prod.mk.injEq] at h
    obtain ⟨rfl, rfl⟩ := h
    exact hs

theorem put_length (M key val : Nat) (bks : List (List Nat)) :
    (put M key val bks).length = bks.length := by
  simp [put]

theorem put_getD_eq {M key i : Nat} (val : Nat) (bks : List (List Nat))
    (hi : i = hash M key) (h : i < bks.length) :
    (put M key val bks).getD i [] = val :: bks.getD i [] := by
  subst hi
  simp only [put]
  rw [getD_set_self, if_pos h]

theorem put_getD_ne {M key i : Nat} (val : Nat) (bks : List (List Nat))
    (h : i ≠ hash M key) : (put M key val bks).getD i [] = bks.getD i [] := by
  simp only [put]
  rw [getD_set_ne _ _ _ h]

theorem binit_fold (M : Nat) (hM : 0 < M) : ∀ n : Nat,
    ((List.range n).foldl (fun bks b => put M 0 b bks)
        (List.replicate M ([] : List Nat))).getD 0 [] = (List.range n).reverse ∧
    (∀ i, i ≠ 0 →
      ((List.range n).foldl (fun bks b => put M 0 b bks)
        (List.replicate M ([] : List Nat))).getD i [] = []) ∧
    ((List.range n).foldl (fun bks b => put M 0 b bks)
        (List.replicate M ([] : List Nat))).length = M := by
  intro n
  induction n with
  | zero =>
    refine ⟨?_, ?_, ?_⟩
    · simp [getD_replicate]
    · intro i _
      exact getD_replicate M i ([] : List Nat)
    · simp
  | succ n ih =>
    obtain ⟨ih0, ihne, ihlen⟩ := ih
    rw [List.range_succ, List.foldl_append]
    simp only [List.foldl_cons, List.foldl_nil]
    have hh0 : (0 : Nat) = hash M 0 := (Nat.zero_mod M).symm
    refine ⟨?_, ?_, ?_⟩
    · rw [put_getD_eq n _ hh0 (by rw [ihlen]; exact hM), ih0,
        List.reverse_append]
      simp
    · intro i hi
      rw [put_getD_ne n _ (fun he => hi (he.trans hh0.symm))]
      exact ihne i hi
    · rw [put_length]
      exact ihlen

theorem inv_binit (M N : Nat) (hM : 0 < M) : Inv M N (binit M N) := by
  obtain ⟨h0, hne, hlen⟩ := binit_fold M hM N
  have hbufs : ∀ k, (binit M N).bufs.getD k buf0 = buf0 := fun k =>
    getD_replicate N k buf0
  refine ⟨hM, by simp [binit], hlen, ?_, ?_, ?_, ?_⟩
  · intro i j hmem
    by_cases hi : i = 0
    · subst hi
      rw [show (binit M N).buckets.getD 0 [] = (List.range N).reverse from h0]
        at hmem
      exact List.mem_range.1 (List.mem_reverse.1 hmem)
    · rw [show (binit M N).buckets.getD i [] = [] from hne i hi] at hmem
      simp at hmem
  · intro j hj
    rw [hbufs j]
    have hh0 : hash M buf0.blockno = 0 := Nat.zero_mod M
    rw [hh0]
    rw [show (binit M N).buckets.getD 0 [] = (List.range N).reverse from h0,
      List.count_reverse]
    exact List.count_eq_one_of_mem (List.nodup_range N) (List.mem_range.2 hj)
  · intro j i hj hi
    rw [hbufs j] at hi
    have hh0 : hash M buf0.blockno = 0 := Nat.zero_mod M
    rw [hh0] at hi
    rw [show (binit M N).buckets.getD i [] = [] from hne i hi]
    simp
  · intro i
    refine pairwise_of_all (fun a b => ?_) _
    intro hlive
    exact absurd (show ((binit M N).bufs.getD b buf0).refcnt = 0 by
      rw [hbufs b]; rfl) hlive

theorem reachable_inv {M N : Nat} {s : BCache} (h : Reachable M N s) :
    Inv M N s := by
  induction h with
  | init hM => exact inv_binit M N hM
  | step_bget dev blockno j s0 s1 hr hstep ih => exact inv_bget ih hstep
  | step_bread dev blockno j s0 s1 r hr hstep ih => exact inv_bread ih hstep
  | step_bwrite j s0 s1 r hr hstep ih => exact inv_bwrite ih hstep
  | step_brelse j s0 s1 hr hstep ih => exact inv_brelse ih hstep
  | step_bpin j s0 hr hpre ih => exact inv_bpin ih hpre
  | step_bunpin j s0 hr ih => exact inv_bunpin ih

/-! ### Derived facts used by the claims -/

theorem findMatch_eq_none_of {bufs : List Buf} {dev blockno : Nat} :
    ∀ {l : List Nat}, (∀ a ∈ l, ¬ isMatch bufs dev blockno a) →
      findMatch bufs dev blockno l = none := by
  intro l
  induction l with
  | nil => intro _; rfl
  | cons x xs ih =>
    intro h
    have hx : ¬ isMatch bufs dev blockno x := h x (by simp)
    simp only [findMatch, if_neg hx]
    exact ih (fun a ha => h a (by simp [ha]))

theorem findFree_eq_none_of {bufs : List Buf} :
    ∀ {l : List Nat}, (∀ a ∈ l, ¬ isFree bufs a) → findFree bufs l = none := by
  intro l
  induction l with
  | nil => intro _; rfl
  | cons x xs ih =>
    intro h
    have hx : ¬ isFree bufs x := h x (by simp)
    simp only [findFree, if_neg hx]
    exact ih (fun a ha => h a (by simp [ha]))

/-- Slot `j` currently carries identity (dev, blockno) with a live reference. -/
def liveAt (s : BCache) (j dev blockno : Nat) : Prop :=
  (s.bufs.getD j buf0).refcnt ≠ 0 ∧ (s.bufs.getD j buf0).dev = dev ∧
  (s.bufs.getD j buf0).blockno = blockno

instance (s : BCache) (j dev blockno : Nat) :
    Decidable (liveAt s j dev blockno) := by
  unfold liveAt; infer_instance

/-- In an invariant state, at most one slot in the whole pool is live for any
given (device, block number) pair. -/
theorem Inv.unique {M N : Nat} {s : BCache} (hs : Inv M N s)
    {dev blockno j k : Nat} (hj : j < N) (hk : k < N)
    (hjl : liveAt s j dev blockno) (hkl : liveAt s k dev blockno) : j = k := by
  by_contra hne
  have hjm : j ∈ s.buckets.getD (hash M blockno) [] := by
    have := hs.mem_home hj
    rw [hjl.2.2] at this
    exact this
  have hkm : k ∈ s.buckets.getD (hash M blockno) [] := by
    have := hs.mem_home hk
    rw [hkl.2.2] at this
    exact this
  have hsym : Symmetric (fun a b =>
      LiveP s.bufs a b ∨ LiveP s.bufs b a) := by
    intro a b hab
    exact hab.symm
  have hpw : (s.buckets.getD (hash M blockno) []).Pairwise
      (fun a b => LiveP s.bufs a b ∨ LiveP s.bufs b a) :=
    (hs.liveFirst (hash M blockno)).imp (fun hab => Or.inl hab)
  have hor := List.Pairwise.forall hsym hpw hjm hkm hne
  rcases hor with hjk | hkj
  · exact hjk hkl.1 ⟨hjl.2.1.trans hkl.2.1.symm, hjl.2.2.trans hkl.2.2.symm⟩
  · exact hkj hjl.1 ⟨hkl.2.1.trans hjl.2.1.symm, hkl.2.2.trans hjl.2.2.symm⟩

/-- In an invariant state, the phase-1 scan finds exactly the live slot when
one exists: the live-first ordering puts it before any stale duplicate. -/
theorem Inv.findMatch_live {M N : Nat} {s : BCache} (hs : Inv M N s)
    {dev blockno k : Nat} (hk : k < N) (hlive : liveAt s k dev blockno) :
    findMatch s.bufs dev blockno
      (s.buckets.getD (hash M blockno) []) = some k := by
  have hkm : k ∈ s.buckets.getD (hash M blockno) [] := by
    have := hs.mem_home hk
    rw [hlive.2.2] at this
    exact this
  have hcnt : (s.buckets.getD (hash M blockno) []).count k = 1 := by
    have := hs.home k hk
    rw [hlive.2.2] at this
    exact this
  rcases mem_count_one_split hkm hcnt with ⟨l1, l2, hdec, hnl1, hnl2⟩
  have hpw := hs.liveFirst (hash M blockno)
  rw [hdec] at hpw
  rcases List.pairwise_append.1 hpw with ⟨_, _, cross⟩
  rw [hdec]
  refine findMatch_append_of (fun a ha _ => ?_) ⟨hlive.2.1, hlive.2.2⟩
  intro hcontra
  have hak := cross a ha k (List.mem_cons_self _ _)
  exact hak hlive.1
    ⟨hcontra.1.trans hlive.2.1.symm, hcontra.2.trans hlive.2.2.symm⟩

/-- Exactly-once membership over the whole bucket table, as a single count. -/
theorem count_join_unique {j : Nat} : ∀ {L : List (List Nat)} {h : Nat},
    (L.getD h []).count j = 1 → (∀ i, i ≠ h → j ∉ L.getD i []) →
    (L.flatten).count j = 1 := by
  intro L
  induction L with
  | nil =>
    intro h hc _
    simp at hc
  | cons x xs ih =>
    intro h hc hn
    cases h with
    | zero =>
      have hx : x.count j = 1 := hc
      have hrest : (xs.flatten).count j = 0 := by
        rw [List.count_eq_zero]
        intro hmem
        rcases List.mem_flatten.1 hmem with ⟨l, hl, hjl⟩
        rcases List.mem_iff_getElem?.1 hl with ⟨i, hi⟩
        have : xs.getD i [] = l := by
          rw [List.getD_eq_getElem?_getD, hi]
          rfl
        exact hn (i + 1) (Nat.succ_ne_zero i) (by
          show j ∈ (x :: xs).getD (i + 1) []
          rw [show (x :: xs).getD (i + 1) [] = xs.getD i [] by simp, this]
          exact hjl)
      rw [List.flatten_cons, List.count_append, hx, hrest]
    | succ h =>
      have hx : x.count j = 0 := by
        rw [List.count_eq_zero]
        exact hn 0 (Ne.symm (Nat.succ_ne_zero h))
      have hrest : (xs.flatten).count j = 1 := by
        refine ih (by simpa using hc) ?_
        intro i hi
        have := hn (i + 1) (by omega)
        simpa using this
      rw [List.flatten_cons, List.count_append, hx, hrest]

theorem Inv.join_count {M N : Nat} {s : BCache} (hs : Inv M N s) {j : Nat}
    (hj : j < N) : (s.buckets.flatten).count j = 1 :=
  count_join_unique (hs.home j hj) (fun i hi => hs.away j i hj hi)

/-! ### Shape of the state returned by bget -/

theorem bgetSteal_post {M N dev blockno : Nat} {s : BCache} (hs : Inv M N s) :
    ∀ {j : Nat} {s' : BCache} (is : List Nat),
      bgetSteal M dev blockno s is = .ok (j, s') →
      s'.buckets.getD (hash M blockno) [] =
        j :: s.buckets.getD (hash M blockno) [] ∧
      s'.bufs = s.bufs.set j ⟨dev, blockno, 0, 1, true⟩ ∧ j < N := by
  intro j s' is
  induction is with
  | nil => intro h; simp [bgetSteal] at h
  | cons i rest ih =>
    intro h
    simp only [bgetSteal] at h
    by_cases hcol : hash M blockno = hash M (blockno + i)
    · rw [if_pos hcol] at h
      simp at h
    · rw [if_neg hcol] at h
      cases hf : findFree s.bufs (s.buckets.getD (hash M (blockno + i)) []) with
      | some j0 =>
        rw [hf] at h
        simp only [Except.ok.injEq, Prod.mk.injEq] at h
        obtain ⟨rfl, rfl⟩ := h
        have hjmem : j0 ∈ s.buckets.getD (hash M (blockno + i)) [] := by
          rcases findFree_eq_some hf with ⟨f1, f2, hd, _, _⟩
          rw [hd]
          exact List.mem_append_right _ (List.mem_cons_self _ _)
        have hjN : j0 < N := hs.entries_lt _ j0 hjmem
        have hjhome : hash M ((s.bufs.getD j0 buf0).blockno) =
            hash M (blockno + i) := (hs.bucket_of_mem hjmem).symm
        have hrem : remove M s.bufs s.buckets j0 =
            s.buckets.set (hash M (blockno + i))
              (removeFirst j0 (s.buckets.getD (hash M (blockno + i)) [])) := by
          simp only [remove]
          rw [hjhome]
        refine ⟨?_, rfl, hjN⟩
        show (put M blockno j0 (remove M s.bufs s.buckets j0)).getD
          (hash M blockno) [] = _
        rw [hrem]
        simp only [put]
        rw [getD_set_ne _ _ _ hcol, getD_set_self, List.length_set, hs.klen,
          if_pos (hash_lt hs.hM blockno)]
      | none =>
        rw [hf] at h
        exact ih h

/-- After a successful `bget (dev, blockno)`, the returned slot is the first
(dev, blockno) match of bucket `hash blockno` in the post-state, and its
content lock is held. -/
theorem bget_post {M N dev blockno j : Nat} {s s' : BCache} (hs : Inv M N s)
    (h : bget M dev blockno s = .ok (j, s')) :
    findMatch s'.bufs dev blockno
      (s'.buckets.getD (hash M blockno) []) = some j ∧
    (s'.bufs.getD j buf0).lockHeld = true := by
  unfold bget at h
  cases hm : findMatch s.bufs dev blockno
      (s.buckets.getD (hash M blockno) []) with
  | some j0 =>
    rw [hm] at h
    simp only [Except.ok.injEq, Prod.mk.injEq] at h
    obtain ⟨rfl, rfl⟩ := h
    rcases findMatch_eq_some hm with ⟨l1, l2, hdec, hmm, hl1⟩
    have hjmem : j0 ∈ s.buckets.getD (hash M blockno) [] := by
      rw [hdec]
      exact List.mem_append_right _ (List.mem_cons_self _ _)
    have hjN : j0 < N := hs.entries_lt _ j0 hjmem
    have hjlen : j0 < s.bufs.length := by rw [hs.blen]; exact hjN
    have hgj : ∀ b' : Buf, (s.bufs.set j0 b').getD j0 buf0 = b' := by
      intro b'
      rw [getD_set_self, if_pos hjlen]
    constructor
    · show findMatch _ dev blockno (s.buckets.getD (hash M blockno) []) = _
      rw [hdec]
      refine findMatch_append_of (fun a ha hne => ?_) ?_
      · have : ¬ isMatch s.bufs dev blockno a := hl1 a ha
        unfold isMatch at this ⊢
        rw [getD_set_ne _ _ _ hne]
        exact this
      · unfold isMatch
        rw [hgj]
        exact ⟨hmm.1, hmm.2⟩
    · rw [hgj]
  | none =>
    rw [hm] at h
    cases hf : findFree s.bufs (s.buckets.getD (hash M blockno) []) with
    | some j0 =>
      rw [hf] at h
      simp only [Except.ok.injEq, Prod.mk.injEq] at h
      obtain ⟨rfl, rfl⟩ := h
      have hjmem : j0 ∈ s.buckets.getD (hash M blockno) [] := by
        rcases findFree_eq_some hf with ⟨f1, f2, hd, _, _⟩
        rw [hd]
        exact List.mem_append_right _ (List.mem_cons_self _ _)
      have hjN : j0 < N := hs.entries_lt _ j0 hjmem
      have hjlen : j0 < s.bufs.length := by rw [hs.blen]; exact hjN
      have hcnt : (s.buckets.getD (hash M blockno) []).count j0 = 1 := by
        have hjhome : hash M ((s.bufs.getD j0 buf0).blockno) = hash M blockno :=
          (hs.bucket_of_mem hjmem).symm
        rw [← hjhome]
        exact hs.home j0 hjN
      rcases mem_count_one_split hjmem hcnt with ⟨l1, l2, hdec, hnl1, hnl2⟩
      have hgj : (s.bufs.set j0 ⟨dev, blockno, 0, 1, true⟩).getD j0 buf0 =
          ⟨dev, blockno, 0, 1, true⟩ := by
        rw [getD_set_self, if_pos hjlen]
      constructor
      · show findMatch _ dev blockno (s.buckets.getD (hash M blockno) []) = _
        rw [hdec]
        refine findMatch_append_of (fun a ha hne => ?_) ?_
        · have hal : a ∈ s.buckets.getD (hash M blockno) [] := by
            rw [hdec]
            exact List.mem_append_left _ ha
          have : ¬ isMatch s.bufs dev blockno a := findMatch_eq_none hm a hal
          unfold isMatch at this ⊢
          rw [getD_set_ne _ _ _ hne]
          exact this
        · unfold isMatch
          rw [hgj]
          exact ⟨rfl, rfl⟩
      · rw [hgj]
    | none =>
      rw [hf] at h
      obtain ⟨hbk, hbf, hjN⟩ := bgetSteal_post hs _ h
      have hjlen : j < s.bufs.length := by rw [hs.blen]; exact hjN
      have hgj : (s.bufs.set j ⟨dev, blockno, 0, 1, true⟩).getD j buf0 =
          ⟨dev, blockno, 0, 1, true⟩ := by
        rw [getD_set_self, if_pos hjlen]
      constructor
      · rw [hbk, hbf]
        have hm2 : isMatch (s.bufs.set j ⟨dev, blockno, 0, 1, true⟩) dev blockno j := by
          unfold isMatch
          rw [hgj]
          exact ⟨rfl, rfl⟩
        simp [findMatch, hm2]
      · rw [hbf, hgj]

/-- After a successful `bread (dev, blockno)`, the returned slot is the first
(dev, blockno) match of its bucket, its `valid` flag is set, and its content
lock is held. -/
theorem bread_post {M N dev blockno j : Nat} {s s' : BCache} {r : Bool}
    (hs : Inv M N s) (h : bread M dev blockno s = .ok (j, s', r)) :
    findMatch s'.bufs dev blockno
      (s'.buckets.getD (hash M blockno) []) = some j ∧
    (s'.bufs.getD j buf0).valid ≠ 0 ∧
    (s'.bufs.getD j buf0).lockHeld = true := by
  simp only [bread] at h
  split at h
  · simp at h
  · rename_i j0 s1 hbg
    obtain ⟨hfm, hlk⟩ := bget_post hs hbg
    have hs1 : Inv M N s1 := inv_bget hs hbg
    have hj0mem : j0 ∈ s1.buckets.getD (hash M blockno) [] := by
      rcases findMatch_eq_some hfm with ⟨l1, l2, hdec, _, _⟩
      rw [hdec]
      exact List.mem_append_right _ (List.mem_cons_self _ _)
    have hj0N : j0 < N := hs1.entries_lt _ j0 hj0mem
    have hj0len : j0 < s1.bufs.length := by rw [hs1.blen]; exact hj0N
    split at h
    · rename_i hv
      simp only [Except.ok.injEq, Prod.mk.injEq] at h
      obtain ⟨rfl, rfl, rfl⟩ := h
      have hgj : ∀ b' : Buf, (s1.bufs.set j0 b').getD j0 buf0 = b' := by
        intro b'
        rw [getD_set_self, if_pos hj0len]
      refine ⟨?_, ?_, ?_⟩
      · show findMatch _ dev blockno (s1.buckets.getD (hash M blockno) []) = _
        rw [findMatch_congr (@getD_set_ident s1.bufs j0
          ⟨(s1.bufs.getD j0 buf0).dev, (s1.bufs.getD j0 buf0).blockno, 1,
            (s1.bufs.getD j0 buf0).refcnt, (s1.bufs.getD j0 buf0).lockHeld⟩
          rfl rfl)]
        exact hfm
      · rw [hgj]
        simp
      · rw [hgj]
        exact hlk
    · simp only [Except.ok.injEq, Prod.mk.injEq] at h
      obtain ⟨rfl, rfl, rfl⟩ := h
      rename_i hv
      exact ⟨hfm, hv, hlk⟩

/-! ### Probe-sequence arithmetic and steal-loop walks -/

theorem mem_probe_range {M i : Nat} :
    i ∈ List.range' 1 (M - 1) ↔ 1 ≤ i ∧ i < M := by
  rw [List.mem_range']
  constructor
  · rintro ⟨k, hk, rfl⟩
    omega
  · intro h
    exact ⟨i - 1, by omega, by omega⟩

/-- With mod-M hashing, probe offsets 1 .. M-1 never wrap onto the caller's own
bucket: the self-collision panic of bget phase 3 is unreachable. -/
theorem hash_ne_add {M blockno i : Nat} (h1 : 1 ≤ i) (h2 : i < M) :
    hash M blockno ≠ hash M (blockno + i) := by
  unfold hash
  intro he
  have hM : 0 < M := by omega
  have hi : i % M = i := Nat.mod_eq_of_lt h2
  rw [Nat.add_mod, hi] at he
  have hrM : blockno % M < M := Nat.mod_lt _ hM
  by_cases hcase : blockno % M + i < M
  · rw [Nat.mod_eq_of_lt hcase] at he
    omega
  · have hlt : blockno % M + i - M < M := by omega
    have hsub := Nat.mod_eq_sub_mod (show blockno % M + i ≥ M by omega)
    rw [Nat.mod_eq_of_lt hlt] at hsub
    rw [hsub] at he
    omega

/-- Every foreign bucket is reached by some probe offset in 1 .. M-1. -/
theorem exists_probe {M blockno β : Nat} (hβ : β < M) (hne : β ≠ blockno % M) :
    ∃ i, 1 ≤ i ∧ i < M ∧ (blockno + i) % M = β := by
  have hM : 0 < M := by omega
  have hr : blockno % M < M := Nat.mod_lt _ hM
  by_cases hc : blockno % M < β
  · refine ⟨β - blockno % M, by omega, by omega, ?_⟩
    rw [Nat.add_mod, Nat.mod_eq_of_lt (show β - blockno % M < M by omega),
      Nat.mod_eq_of_lt (show blockno % M + (β - blockno % M) < M by omega)]
    omega
  · refine ⟨β + M - blockno % M, by omega, by omega, ?_⟩
    rw [Nat.add_mod,
      Nat.mod_eq_of_lt (show β + M - blockno % M < M by omega),
      show blockno % M + (β + M - blockno % M) = β + M by omega,
      Nat.add_mod_right, Nat.mod_eq_of_lt hβ]

theorem bgetSteal_none {M dev blockno : Nat} {s : BCache} :
    ∀ {is : List Nat}, (∀ i ∈ is, hash M blockno ≠ hash M (blockno + i)) →
      (∀ i ∈ is, findFree s.bufs
        (s.buckets.getD (hash M (blockno + i)) []) = none) →
      bgetSteal M dev blockno s is = .error "bget: no buffers" := by
  intro is
  induction is with
  | nil => intro _ _; rfl
  | cons i rest ih =>
    intro hc hf
    simp only [bgetSteal]
    rw [if_neg (hc i (by simp)), hf i (by simp)]
    exact ih (fun a ha => hc a (by simp [ha])) (fun a ha => hf a (by simp [ha]))

theorem bgetSteal_cons_hit {M dev blockno i j : Nat} {is : List Nat}
    {s : BCache} (hcol : hash M blockno ≠ hash M (blockno + i))
    (hff : findFree s.bufs (s.buckets.getD (hash M (blockno + i)) []) = some j) :
    bgetSteal M dev blockno s (i :: is) = .ok (j,
      ⟨s.bufs.set j ⟨dev, blockno, 0, 1, true⟩,
       put M blockno j (remove M s.bufs s.buckets j)⟩) := by
  simp only [bgetSteal]
  rw [if_neg hcol, hff]

theorem getD_two_sets {bufs : List Buf} {j : Nat} (b1 b2 : Buf)
    (hlen : j < bufs.length) :
    ((bufs.set j b1).set j b2).getD j buf0 = b2 := by
  rw [getD_set_self, List.length_set, if_pos hlen]

theorem bgetSteal_isOk {M dev blockno : Nat} {s : BCache} :
    ∀ {is : List Nat}, (∀ i ∈ is, hash M blockno ≠ hash M (blockno + i)) →
      (∃ i ∈ is, findFree s.bufs
        (s.buckets.getD (hash M (blockno + i)) []) ≠ none) →
      ∃ j s', bgetSteal M dev blockno s is = .ok (j, s') := by
  intro is
  induction is with
  | nil =>
    intro _ hex
    simp at hex
  | cons i rest ih =>
    intro hc hex
    cases hf : findFree s.bufs (s.buckets.getD (hash M (blockno + i)) []) with
    | some j0 =>
      exact ⟨j0, ⟨s.bufs.set j0 ⟨dev, blockno, 0, 1, true⟩,
        put M blockno j0 (remove M s.bufs s.buckets j0)⟩,
        bgetSteal_cons_hit (hc i (by simp)) hf⟩
    | none =>
      have hex' : ∃ a ∈ rest, findFree s.bufs
          (s.buckets.getD (hash M (blockno + a)) []) ≠ none := by
        rcases hex with ⟨a, ha, hne⟩
        rcases List.mem_cons.1 ha with rfl | ha'
        · exact absurd hf hne
        · exact ⟨a, ha', hne⟩
      rcases ih (fun a ha => hc a (by simp [ha])) hex' with ⟨j, s', hok⟩
      refine ⟨j, s', ?_⟩
      simp only [bgetSteal]
      rw [if_neg (hc i (by simp)), hf]
      exact hok

theorem bgetSteal_skip_all {M dev blockno : Nat} {s : BCache} :
    ∀ {l1 rest : List Nat},
      (∀ i ∈ l1, hash M blockno ≠ hash M (blockno + i)) →
      (∀ i ∈ l1, findFree s.bufs
        (s.buckets.getD (hash M (blockno + i)) []) = none) →
      bgetSteal M dev blockno s (l1 ++ rest) =
        bgetSteal M dev blockno s rest := by
  intro l1
  induction l1 with
  | nil => intro _ _ _; rfl
  | cons i tl ih =>
    intro rest hc hf
    simp only [List.cons_append, bgetSteal]
    rw [if_neg (hc i (by simp)), hf i (by simp)]
    exact ih (fun a ha => hc a (by simp [ha])) (fun a ha => hf a (by simp [ha]))

theorem bread_eq_of_bget {M dev blockno j : Nat} {s s1 : BCache}
    (h : bget M dev blockno s = .ok (j, s1)) :
    bread M dev blockno s =
      if (s1.bufs.getD j buf0).valid = 0 then
        .ok (j, ⟨s1.bufs.set j
          ⟨(s1.bufs.getD j buf0).dev, (s1.bufs.getD j buf0).blockno, 1,
           (s1.bufs.getD j buf0).refcnt, (s1.bufs.getD j buf0).lockHeld⟩,
          s1.buckets⟩, true)
      else .ok (j, s1, false) := by
  unfold bread
  rw [h]

/-- A read whose bucket scan hits a valid slot performs no device read: it
returns that slot with its refcount bumped and the lock taken. -/
theorem bread_hit_no_read {M N dev blockno j : Nat} {s2 : BCache}
    (hinv2 : Inv M N s2)
    (hfm : findMatch s2.bufs dev blockno
      (s2.buckets.getD (hash M blockno) []) = some j)
    (hval : (s2.bufs.getD j buf0).valid ≠ 0) :
    bread M dev blockno s2 = .ok (j,
      ⟨s2.bufs.set j ⟨(s2.bufs.getD j buf0).dev, (s2.bufs.getD j buf0).blockno,
        (s2.bufs.getD j buf0).valid, (s2.bufs.getD j buf0).refcnt + 1, true⟩,
       s2.buckets⟩, false) := by
  have hjN : j < N := by
    rcases findMatch_eq_some hfm with ⟨l1, l2, hdec, _, _⟩
    exact hinv2.entries_lt _ j
      (by rw [hdec]; exact List.mem_append_right _ (List.mem_cons_self _ _))
  have hjlen : j < s2.bufs.length := by rw [hinv2.blen]; exact hjN
  have hbg2 : bget M dev blockno s2 = .ok (j,
      ⟨s2.bufs.set j ⟨(s2.bufs.getD j buf0).dev, (s2.bufs.getD j buf0).blockno,
        (s2.bufs.getD j buf0).valid, (s2.bufs.getD j buf0).refcnt + 1, true⟩,
       s2.buckets⟩) := by
    unfold bget
    rw [hfm]
  rw [bread_eq_of_bget hbg2]
  have hvd : (((s2.bufs.set j
      ⟨(s2.bufs.getD j buf0).dev, (s2.bufs.getD j buf0).blockno,
        (s2.bufs.getD j buf0).valid, (s2.bufs.getD j buf0).refcnt + 1,
        true⟩)).getD j buf0).valid = (s2.bufs.getD j buf0).valid := by
    rw [getD_set_self, if_pos hjlen]
  rw [if_neg (by rw [hvd]; exact hval)]

/-! ### The claims -/

/-- C4, counterexample.  The claim says that calling `remove` (unlink) on a
slot that is not a member of the scanned bucket list "fails fatally (a
programming-invariant violation, not a silent no-op)".  The scan loop of
bio.c `remove` (lines 42-55) contains no `panic` call: when the slot is not
found the loop falls off the end and the function returns silently, leaving
every list untouched.  Concretely: one slot tagged (5,7), both buckets empty,
so slot 0 is in no list; `remove` on it returns the bucket table unchanged
instead of failing. -/
theorem C4_counterexample :
    (0 ∉ (([[], []] : List (List Nat)).getD
      (hash 2 ((([⟨5, 7, 0, 0, false⟩] : List Buf).getD 0 buf0).blockno)) [])) ∧
    remove 2 [⟨5, 7, 0, 0, false⟩] [[], []] 0 = [[], []] := by
  constructor
  · decide
  · rfl

/-- C4, amended: for a slot that is not a member of the bucket list that
`remove` scans (bucket `hash slot.blockno`), the call is a silent no-op
returning every bucket list unchanged — not a fatal failure; for a member
slot, `remove` deletes exactly the first occurrence of that slot by identity,
relinking its neighbours and leaving all other members, their order, and all
other buckets unchanged. -/
theorem C4_remove_amended : ∀ (M : Nat) (bufs : List Buf)
    (bks : List (List Nat)) (j : Nat),
    (j ∉ bks.getD (hash M ((bufs.getD j buf0).blockno)) [] →
      remove M bufs bks j = bks) ∧
    (∀ l1 l2, bks.getD (hash M ((bufs.getD j buf0).blockno)) [] = l1 ++ j :: l2 →
      j ∉ l1 →
      remove M bufs bks j =
        bks.set (hash M ((bufs.getD j buf0).blockno)) (l1 ++ l2)) := by
  intro M bufs bks j
  constructor
  · intro hnm
    simp only [remove]
    rw [removeFirst_of_not_mem hnm, set_getD_self]
  · intro l1 l2 hdec hnl1
    simp only [remove]
    rw [hdec, removeFirst_append hnl1]

/-- Witness for C4: removing slot 1 from bucket list [0, 1] (both slots hash
to bucket 1) yields [0] and leaves bucket 0 untouched. -/
theorem C4_witness :
    remove 2 [⟨1, 1, 0, 0, false⟩, ⟨1, 1, 0, 0, false⟩] [[], [0, 1]] 1 =
      [[], [0]] :=
  (C4_remove_amended 2 [⟨1, 1, 0, 0, false⟩, ⟨1, 1, 0, 0, false⟩]
    [[], [0, 1]] 1).2 [0] [] (by decide) (by decide)

/-- C6: `bwrite` fails fatally (panic "bwrite") exactly when the caller does
not hold the slot's content lock; when the lock is held it invokes the block
device to persist the contents and leaves the entire cache state unchanged —
in particular the slot's valid flag, refcount and (device, block number)
identity. -/
theorem C6_bwrite : ∀ (s : BCache) (j : Nat),
    ((s.bufs.getD j buf0).lockHeld = false → bwrite s j = .error "bwrite") ∧
    ((s.bufs.getD j buf0).lockHeld = true → bwrite s j = .ok (s, true)) := by
  intro s j
  constructor
  · intro h
    unfold bwrite
    rw [if_pos h]
  · intro h
    unfold bwrite
    rw [if_neg (by rw [h]; simp)]

/-- Witness for C6: on a held slot `bwrite` succeeds and changes nothing; on
the freshly initialized pool (no lock held) it is fatal. -/
theorem C6_witness :
    bwrite ⟨[⟨1, 2, 1, 1, true⟩], [[0], []]⟩ 0 =
      .ok (⟨[⟨1, 2, 1, 1, true⟩], [[0], []]⟩, true) ∧
    bwrite (binit 2 4) 0 = .error "bwrite" :=
  ⟨(C6_bwrite ⟨[⟨1, 2, 1, 1, true⟩], [[0], []]⟩ 0).2 (by decide),
   (C6_bwrite (binit 2 4) 0).1 (by decide)⟩

/-- C7: `brelse` fails fatally (panic "brelse") when the caller does not hold
the slot's content lock; when it does, it releases the content lock and
decrements the refcount by exactly one, and performs no bucket-list movement:
the bucket table and every slot's device, block number and valid fields are
unchanged. -/
theorem C7_brelse : ∀ (s : BCache) (j : Nat),
    ((s.bufs.getD j buf0).lockHeld = false → brelse s j = .error "brelse") ∧
    ((s.bufs.getD j buf0).lockHeld = true →
      brelse s j = .ok ⟨s.bufs.set j
        ⟨(s.bufs.getD j buf0).dev, (s.bufs.getD j buf0).blockno,
         (s.bufs.getD j buf0).valid, (s.bufs.getD j buf0).refcnt - 1, false⟩,
        s.buckets⟩ ∧
      (0 < (s.bufs.getD j buf0).refcnt →
        (s.bufs.getD j buf0).refcnt - 1 + 1 = (s.bufs.getD j buf0).refcnt)) := by
  intro s j
  constructor
  · intro h
    simp only [brelse]
    rw [if_pos h]
  · intro h
    constructor
    · simp only [brelse]
      rw [if_neg (by rw [h]; simp)]
    · intro hpos
      omega

/-- Witness for C7: releasing a held slot with refcount 2 yields refcount 1,
lock released, bucket lists untouched; releasing an unheld slot is fatal. -/
theorem C7_witness :
    brelse ⟨[⟨1, 2, 1, 2, true⟩], [[0], []]⟩ 0 =
      .ok ⟨[⟨1, 2, 1, 1, false⟩], [[0], []]⟩ ∧
    brelse (binit 2 4) 0 = .error "brelse" :=
  ⟨((C7_brelse ⟨[⟨1, 2, 1, 2, true⟩], [[0], []]⟩ 0).2 (by decide)).1,
   (C7_brelse (binit 2 4) 0).1 (by decide)⟩

/-- C8: `bpin` increments and `bunpin` decrements the slot's refcount by
exactly one, touching neither the content lock nor any bucket list; hence on a
held slot with refcount 1, pin followed by release leaves refcount 1 with the
content lock released, and a subsequent unpin brings the refcount to 0. -/
theorem C8_pin_unpin : ∀ (s : BCache) (j : Nat),
    bpin s j = ⟨s.bufs.set j
      ⟨(s.bufs.getD j buf0).dev, (s.bufs.getD j buf0).blockno,
       (s.bufs.getD j buf0).valid, (s.bufs.getD j buf0).refcnt + 1,
       (s.bufs.getD j buf0).lockHeld⟩, s.buckets⟩ ∧
    bunpin s j = ⟨s.bufs.set j
      ⟨(s.bufs.getD j buf0).dev, (s.bufs.getD j buf0).blockno,
       (s.bufs.getD j buf0).valid, (s.bufs.getD j buf0).refcnt - 1,
       (s.bufs.getD j buf0).lockHeld⟩, s.buckets⟩ ∧
    (j < s.bufs.length → (s.bufs.getD j buf0).refcnt = 1 →
      (s.bufs.getD j buf0).lockHeld = true →
      ((bpin s j).bufs.getD j buf0).refcnt = 2 ∧
      brelse (bpin s j) j = .ok ⟨(bpin s j).bufs.set j
        ⟨(s.bufs.getD j buf0).dev, (s.bufs.getD j buf0).blockno,
         (s.bufs.getD j buf0).valid, 1, false⟩, s.buckets⟩ ∧
      ((bunpin ⟨(bpin s j).bufs.set j
        ⟨(s.bufs.getD j buf0).dev, (s.bufs.getD j buf0).blockno,
         (s.bufs.getD j buf0).valid, 1, false⟩, s.buckets⟩ j).bufs.getD
          j buf0).refcnt = 0) := by
  intro s j
  refine ⟨rfl, rfl, ?_⟩
  intro hlen hr hl
  have hb1 : (bpin s j).bufs.getD j buf0 =
      ⟨(s.bufs.getD j buf0).dev, (s.bufs.getD j buf0).blockno,
       (s.bufs.getD j buf0).valid, (s.bufs.getD j buf0).refcnt + 1,
       (s.bufs.getD j buf0).lockHeld⟩ := by
    show (s.bufs.set j _).getD j buf0 = _
    rw [getD_set_self, if_pos hlen]
  refine ⟨by rw [hb1, hr], ?_, ?_⟩
  · simp only [brelse]
    rw [if_neg (by rw [hb1]; simp only []; rw [hl]; simp)]
    rw [hb1, hr]
    rfl
  · show ((((bpin s j).bufs.set j _).set j _).getD j buf0).refcnt = 0
    rw [getD_set_self, List.length_set]
    have hlen1 : j < (bpin s j).bufs.length := by
      show j < (s.bufs.set j _).length
      rw [List.length_set]
      exact hlen
    rw [if_pos hlen1]
    show ((((bpin s j).bufs.set j _).getD j buf0).refcnt - 1) = 0
    rw [getD_set_self, if_pos hlen1]
    rfl

/-- C2: `bread` invokes the block device if and only if the slot returned by
`bget` has `valid = 0`, in which case it sets `valid` to 1 (leaving every
other field and every bucket list alone); and consequently, in any reachable
state, after a successful read of (dev, blockno) followed by a release, a
second read of the same pair is a cache hit: it returns the same slot, with
no device read (the returned flag is `false`). -/
theorem C2_bread : ∀ (M N dev blockno : Nat) (s : BCache), Reachable M N s →
    (∀ j s1, bget M dev blockno s = .ok (j, s1) →
      ((s1.bufs.getD j buf0).valid = 0 →
        bread M dev blockno s = .ok (j, ⟨s1.bufs.set j
          ⟨(s1.bufs.getD j buf0).dev, (s1.bufs.getD j buf0).blockno, 1,
           (s1.bufs.getD j buf0).refcnt, (s1.bufs.getD j buf0).lockHeld⟩,
          s1.buckets⟩, true)) ∧
      ((s1.bufs.getD j buf0).valid ≠ 0 →
        bread M dev blockno s = .ok (j, s1, false))) ∧
    (∀ j s' r s2, bread M dev blockno s = .ok (j, s', r) →
      brelse s' j = .ok s2 →
      bread M dev blockno s2 = .ok (j,
        ⟨s2.bufs.set j
          ⟨(s2.bufs.getD j buf0).dev, (s2.bufs.getD j buf0).blockno,
           (s2.bufs.getD j buf0).valid, (s2.bufs.getD j buf0).refcnt + 1,
           true⟩, s2.buckets⟩, false)) := by
  intro M N dev blockno s h
  constructor
  · intro j s1 hbg
    constructor
    · intro hv
      rw [bread_eq_of_bget hbg, if_pos hv]
    · intro hv
      rw [bread_eq_of_bget hbg, if_neg hv]
  · intro j s' r s2 hbr hrel
    have hinv : Inv M N s := reachable_inv h
    have hR' : Reachable M N s' :=
      Reachable.step_bread dev blockno j s s' r h hbr
    have hR2 : Reachable M N s2 := Reachable.step_brelse j s' s2 hR' hrel
    have hinv' : Inv M N s' := reachable_inv hR'
    have hinv2 : Inv M N s2 := reachable_inv hR2
    obtain ⟨hfm, hval, hlk⟩ := bread_post hinv hbr
    have hjN : j < N := by
      rcases findMatch_eq_some hfm with ⟨l1, l2, hdec, _, _⟩
      exact hinv'.entries_lt _ j
        (by rw [hdec]; exact List.mem_append_right _ (List.mem_cons_self _ _))
    have hjlen' : j < s'.bufs.length := by rw [hinv'.blen]; exact hjN
    have hs2 : s2 = ⟨s'.bufs.set j
        ⟨(s'.bufs.getD j buf0).dev, (s'.bufs.getD j buf0).blockno,
         (s'.bufs.getD j buf0).valid, (s'.bufs.getD j buf0).refcnt - 1,
         false⟩, s'.buckets⟩ := by
      simp only [brelse] at hrel
      rw [if_neg (by rw [hlk]; simp)] at hrel
      cases hrel
      rfl
    have hfm2 : findMatch s2.bufs dev blockno
        (s2.buckets.getD (hash M blockno) []) = some j := by
      rw [hs2]
      show findMatch (s'.bufs.set j _) dev blockno
        (s'.buckets.getD (hash M blockno) []) = some j
      rw [findMatch_congr (@getD_set_ident s'.bufs j
        ⟨(s'.bufs.getD j buf0).dev, (s'.bufs.getD j buf0).blockno,
         (s'.bufs.getD j buf0).valid, (s'.bufs.getD j buf0).refcnt - 1,
         false⟩ rfl rfl)]
      exact hfm
    have hval2 : (s2.bufs.getD j buf0).valid ≠ 0 := by
      rw [hs2]
      show (((s'.bufs.set j _)).getD j buf0).valid ≠ 0
      rw [getD_set_self, if_pos hjlen']
      exact hval
    exact bread_hit_no_read hinv2 hfm2 hval2

/-- Witness for C2: read (0,0) on the initialized pool (device read performed,
slot 3, valid set), release it (refcount back to 0, still tagged (0,0),
valid 1); the second read of (0,0) returns slot 3 again with no device
read. -/
theorem C2_witness :
    bread 2 0 0 (⟨[buf0, buf0, buf0, ⟨0, 0, 1, 0, false⟩],
      [[3, 2, 1, 0], []]⟩ : BCache) = .ok (3,
      ⟨([buf0, buf0, buf0, ⟨0, 0, 1, 0, false⟩] : List Buf).set 3
        ⟨0, 0, 1, 1, true⟩, [[3, 2, 1, 0], []]⟩, false) :=
  (C2_bread 2 4 0 0 (binit 2 4) (Reachable.init (by decide))).2 3
    (⟨[buf0, buf0, buf0, ⟨0, 0, 1, 1, true⟩], [[3, 2, 1, 0], []]⟩ : BCache)
    true
    (⟨[buf0, buf0, buf0, ⟨0, 0, 1, 0, false⟩], [[3, 2, 1, 0], []]⟩ : BCache)
    (by rfl) (by rfl)

/-- C1: in every reachable state, (i) at most one slot in the whole pool
carries a given (device, blockno) identity with refcount > 0; (ii) when a live
slot for the pair exists, the phase-1 scan of its bucket finds exactly that
slot; and (iii) whenever the target bucket contains a matching slot (the scan
returns one), `bget` returns exactly that slot with its refcount incremented
by one and the content lock acquired, leaving every other slot and every
bucket list unchanged — no second slot is allocated. -/
theorem C1_bget_unique_hit : ∀ (M N : Nat) (s : BCache), Reachable M N s →
    (∀ dev blockno j k, j < N → k < N → liveAt s j dev blockno →
      liveAt s k dev blockno → j = k) ∧
    (∀ dev blockno k, k < N → liveAt s k dev blockno →
      findMatch s.bufs dev blockno
        (s.buckets.getD (hash M blockno) []) = some k) ∧
    (∀ dev blockno j, findMatch s.bufs dev blockno
        (s.buckets.getD (hash M blockno) []) = some j →
      bget M dev blockno s = .ok (j,
        ⟨s.bufs.set j ⟨(s.bufs.getD j buf0).dev, (s.bufs.getD j buf0).blockno,
          (s.bufs.getD j buf0).valid, (s.bufs.getD j buf0).refcnt + 1, true⟩,
         s.buckets⟩)) := by
  intro M N s h
  have hinv := reachable_inv h
  refine ⟨?_, ?_, ?_⟩
  · intro dev blockno j k hj hk hjl hkl
    exact hinv.unique hj hk hjl hkl
  · intro dev blockno k hk hkl
    exact hinv.findMatch_live hk hkl
  · intro dev blockno j hf
    unfold bget
    rw [hf]

/-- Witness for C1: from the initialized pool (2 buckets, 4 slots), `bget` for
the already-tagged pair (0,0) hits slot 3 (the head of bucket 0) and only
bumps its refcount. -/
theorem C1_witness :
    bget 2 0 0 (binit 2 4) = .ok (3,
      ⟨(binit 2 4).bufs.set 3 ⟨0, 0, 0, 1, true⟩, (binit 2 4).buckets⟩) :=
  (C1_bget_unique_hit 2 4 (binit 2 4) (Reachable.init (by decide))).2.2 0 0 3
    (by decide)

/-- C9 (implicit invariant): in every reachable state, every slot resides in
the bucket list whose index is the hash of the slot's currently tagged block
number — which is what lets remove, brelse, bpin and bunpin locate the slot's
bucket (and its lock) by recomputing hash(slot.blockno). -/
theorem C9_placement : ∀ (M N : Nat) (s : BCache), Reachable M N s →
    ∀ i j, j ∈ s.buckets.getD i [] →
      hash M ((s.bufs.getD j buf0).blockno) = i :=
  fun M N s h i j hm => ((reachable_inv h).bucket_of_mem hm).symm

/-- Witness for C9: in the initialized pool, slot 2 sits in bucket 0 and its
tagged block number 0 indeed hashes to 0. -/
theorem C9_witness :
    hash 2 (((binit 2 4).bufs.getD 2 buf0).blockno) = 0 :=
  C9_placement 2 4 (binit 2 4) (Reachable.init (by decide)) 0 2 (by decide)

/-- C3: in every reachable state every slot index is a member of exactly one
bucket list (its multiplicity over the concatenation of all bucket lists is
one), and a successful `bget` — including the cross-bucket steal — moves the
returned slot from its old bucket under its old identity to (exactly one
occurrence in) the bucket of its new identity: before the call the slot is in
the list indexed by the hash of its old block number, afterwards in the list
indexed by the hash of its new block number, and its total multiplicity is
still one. -/
theorem C3_membership : ∀ (M N : Nat) (s : BCache), Reachable M N s →
    (∀ j, j < N → (s.buckets.flatten).count j = 1) ∧
    (∀ dev blockno j s', bget M dev blockno s = .ok (j, s') →
      j ∈ s.buckets.getD (hash M ((s.bufs.getD j buf0).blockno)) [] ∧
      j ∈ s'.buckets.getD (hash M ((s'.bufs.getD j buf0).blockno)) [] ∧
      (s'.buckets.flatten).count j = 1) := by
  intro M N s h
  have hinv := reachable_inv h
  refine ⟨fun j hj => hinv.join_count hj, ?_⟩
  intro dev blockno j s' hbg
  have hinv' := inv_bget hinv hbg
  obtain ⟨hfm, _⟩ := bget_post hinv hbg
  have hjmem' : j ∈ s'.buckets.getD (hash M blockno) [] := by
    rcases findMatch_eq_some hfm with ⟨l1, l2, hdec, _, _⟩
    rw [hdec]
    exact List.mem_append_right _ (List.mem_cons_self _ _)
  have hjN : j < N := hinv'.entries_lt _ j hjmem'
  exact ⟨hinv.mem_home hjN, hinv'.mem_home hjN, hinv'.join_count hjN⟩

/-- Witness for C3: `bget 0 5` on the initialized pool steals slot 3 from
bucket 0 into bucket 1 (hash 5 = 1); before the call slot 3 is in the bucket
of its old tag 0, afterwards in the bucket of its new tag 5, and its total
multiplicity over all bucket lists is still one. -/
theorem C3_witness :
    3 ∈ (binit 2 4).buckets.getD
      (hash 2 (((binit 2 4).bufs.getD 3 buf0).blockno)) [] ∧
    3 ∈ (⟨[buf0, buf0, buf0, ⟨0, 5, 0, 1, true⟩], [[2, 1, 0], [3]]⟩ :
      BCache).buckets.getD (hash 2 ((((⟨[buf0, buf0, buf0, ⟨0, 5, 0, 1, true⟩],
      [[2, 1, 0], [3]]⟩ : BCache)).bufs.getD 3 buf0).blockno)) [] ∧
    ((([[2, 1, 0], [3]] : List (List Nat))).flatten).count 3 = 1 :=
  (C3_membership 2 4 (binit 2 4) (Reachable.init (by decide))).2 0 5 3
    ⟨[buf0, buf0, buf0, ⟨0, 5, 0, 1, true⟩], [[2, 1, 0], [3]]⟩ (by rfl)

/-- C5: in any reachable state, if every slot in the pool has refcount > 0
and the requested (device, blockno) is not tagged on any slot, `bget` aborts
fatally with the exhaustion diagnostic "bget: no buffers" — it neither
returns nor blocks; conversely, as long as some slot has refcount 0, `bget`
succeeds, so acquiring up to N distinct pairs succeeds and only the (N+1)-th
acquire with all N held is fatal. -/
theorem C5_exhaustion : ∀ (M N dev blockno : Nat) (s : BCache),
    Reachable M N s →
    ((∀ k, k < N → (s.bufs.getD k buf0).refcnt ≠ 0) →
     (∀ k, k < N → ¬ isMatch s.bufs dev blockno k) →
     bget M dev blockno s = .error "bget: no buffers") ∧
    ((∃ k, k < N ∧ (s.bufs.getD k buf0).refcnt = 0) →
     ∃ j s', bget M dev blockno s = .ok (j, s')) := by
  intro M N dev blockno s h
  have hinv := reachable_inv h
  constructor
  · intro hall hnm
    have hfm : findMatch s.bufs dev blockno
        (s.buckets.getD (hash M blockno) []) = none :=
      findMatch_eq_none_of (fun a ha => hnm a (hinv.entries_lt _ a ha))
    have hffh : findFree s.bufs (s.buckets.getD (hash M blockno) []) = none :=
      findFree_eq_none_of
        (fun a ha hfree => hall a (hinv.entries_lt _ a ha) hfree)
    unfold bget
    rw [hfm, hffh]
    refine bgetSteal_none ?_ ?_
    · intro i hi
      obtain ⟨h1, h2⟩ := mem_probe_range.1 hi
      exact hash_ne_add h1 h2
    · intro i hi
      exact findFree_eq_none_of
        (fun a ha hfree => hall a (hinv.entries_lt _ a ha) hfree)
  · rintro ⟨k, hkN, hkfree⟩
    cases hm : findMatch s.bufs dev blockno
        (s.buckets.getD (hash M blockno) []) with
    | some j =>
      refine ⟨j, ⟨s.bufs.set j
        ⟨(s.bufs.getD j buf0).dev, (s.bufs.getD j buf0).blockno,
         (s.bufs.getD j buf0).valid, (s.bufs.getD j buf0).refcnt + 1, true⟩,
        s.buckets⟩, ?_⟩
      unfold bget
      rw [hm]
    | none =>
      cases hf : findFree s.bufs (s.buckets.getD (hash M blockno) []) with
      | some j =>
        refine ⟨j, ⟨s.bufs.set j ⟨dev, blockno, 0, 1, true⟩, s.buckets⟩, ?_⟩
        unfold bget
        rw [hm, hf]
      | none =>
        have hkmem : k ∈ s.buckets.getD
            (hash M ((s.bufs.getD k buf0).blockno)) [] := hinv.mem_home hkN
        have hβM : hash M ((s.bufs.getD k buf0).blockno) < M :=
          hash_lt hinv.hM _
        have hβne : hash M ((s.bufs.getD k buf0).blockno) ≠ hash M blockno := by
          intro he
          exact findFree_eq_none hf k (he ▸ hkmem) hkfree
        obtain ⟨i, hi1, hi2, hieq⟩ := exists_probe hβM hβne
        have hcols : ∀ a ∈ List.range' 1 (M - 1),
            hash M blockno ≠ hash M (blockno + a) := by
          intro a ha
          obtain ⟨h1, h2⟩ := mem_probe_range.1 ha
          exact hash_ne_add h1 h2
        have hex : ∃ a ∈ List.range' 1 (M - 1), findFree s.bufs
            (s.buckets.getD (hash M (blockno + a)) []) ≠ none := by
          refine ⟨i, mem_probe_range.2 ⟨hi1, hi2⟩, ?_⟩
          have hgb : hash M (blockno + i) =
              hash M ((s.bufs.getD k buf0).blockno) := hieq
          rw [hgb]
          intro hnone
          exact findFree_eq_none hnone k hkmem hkfree
        obtain ⟨j, s', hok⟩ := bgetSteal_isOk hcols hex
        refine ⟨j, s', ?_⟩
        unfold bget
        rw [hm, hf]
        exact hok

/-- Witness for C5: 2 buckets, 4 slots; after acquiring (0,0), (0,1), (0,2)
and (0,3) — all four slots held — the fifth acquire (0,4) panics with the
exhaustion diagnostic. -/
theorem C5_witness :
    bget 2 0 4 (⟨[⟨0, 3, 0, 1, true⟩, ⟨0, 2, 0, 1, true⟩, ⟨0, 1, 0, 1, true⟩,
      ⟨0, 0, 0, 1, true⟩], [[3, 1], [0, 2]]⟩ : BCache) =
      .error "bget: no buffers" := by
  have h0 : Reachable 2 4 (binit 2 4) := Reachable.init (by decide)
  have h1 := Reachable.step_bget 0 0 3 _ _ h0 rfl
  have h2 := Reachable.step_bget 0 1 2 _ _ h1 rfl
  have h3 := Reachable.step_bget 0 2 1 _ _ h2 rfl
  have h4 := Reachable.step_bget 0 3 0 _ _ h3 rfl
  exact (C5_exhaustion 2 4 0 4 _ h4).1 (by decide) (by decide)

/-- C10 (implicit initialization postcondition): after `binit`, bucket 0
holds exactly the N slots (each exactly once, in reverse pool order), every
other bucket is empty, and every slot is all-zero (tagged block number 0,
refcount 0, valid 0); consequently the very first acquire for any block
number hashing to a non-zero bucket finds neither a hit nor a free slot in
its own (empty) bucket and allocates through the cross-bucket steal path,
moving slot N-1 out of bucket 0 into the target bucket. -/
theorem C10_binit : ∀ (M N : Nat), 0 < M → 0 < N →
    ((binit M N).buckets.getD 0 [] = (List.range N).reverse ∧
     (∀ j, j < N → ((binit M N).buckets.getD 0 []).count j = 1) ∧
     (∀ i, i ≠ 0 → (binit M N).buckets.getD i [] = []) ∧
     (∀ k, k < N → (binit M N).bufs.getD k buf0 = buf0)) ∧
    (∀ dev blockno, hash M blockno ≠ 0 →
      findMatch (binit M N).bufs dev blockno
        ((binit M N).buckets.getD (hash M blockno) []) = none ∧
      findFree (binit M N).bufs
        ((binit M N).buckets.getD (hash M blockno) []) = none ∧
      bget M dev blockno (binit M N) = .ok (N - 1,
        ⟨(binit M N).bufs.set (N - 1) ⟨dev, blockno, 0, 1, true⟩,
         put M blockno (N - 1)
           (remove M (binit M N).bufs (binit M N).buckets (N - 1))⟩) ∧
      (put M blockno (N - 1)
        (remove M (binit M N).bufs (binit M N).buckets (N - 1))).getD
          (hash M blockno) [] = [N - 1]) := by
  intro M N hM hN
  obtain ⟨h00, hne0, hlen0⟩ := binit_fold M hM N
  have h0 : (binit M N).buckets.getD 0 [] = (List.range N).reverse := h00
  have hne : ∀ i, i ≠ 0 → (binit M N).buckets.getD i [] = [] := hne0
  have hlen : (binit M N).buckets.length = M := hlen0
  constructor
  · refine ⟨h0, ?_, hne, ?_⟩
    · intro j hj
      rw [show (binit M N).buckets.getD 0 [] = (List.range N).reverse from h0,
        List.count_reverse]
      exact List.count_eq_one_of_mem (List.nodup_range N) (List.mem_range.2 hj)
    · intro k _
      exact getD_replicate N k buf0
  · intro dev blockno hh
    have hemp : (binit M N).buckets.getD (hash M blockno) [] = [] := hne _ hh
    have hr1 : 0 < blockno % M := Nat.pos_of_ne_zero hh
    have hrM : blockno % M < M := Nat.mod_lt _ hM
    have hfm' : findMatch (binit M N).bufs dev blockno
        ((binit M N).buckets.getD (hash M blockno) []) = none := by
      rw [hemp]
      rfl
    have hff' : findFree (binit M N).bufs
        ((binit M N).buckets.getD (hash M blockno) []) = none := by
      rw [hemp]
      rfl
    refine ⟨hfm', hff', ?_, ?_⟩
    · have hsplit : List.range' 1 (M - blockno % M - 1) ++
          List.range' (M - blockno % M) (blockno % M) =
          List.range' 1 (M - 1) := by
        have happ := List.range'_append_1 1 (M - blockno % M - 1) (blockno % M)
        rw [show 1 + (M - blockno % M - 1) = M - blockno % M by omega,
          show blockno % M + (M - blockno % M - 1) = M - 1 by omega] at happ
        exact happ
      have hc1 : ∀ i ∈ List.range' 1 (M - blockno % M - 1),
          hash M blockno ≠ hash M (blockno + i) := by
        intro i hi
        obtain ⟨k, hk, hik⟩ := List.mem_range'.1 hi
        exact hash_ne_add (by omega) (by omega)
      have hf1 : ∀ i ∈ List.range' 1 (M - blockno % M - 1),
          findFree (binit M N).bufs
            ((binit M N).buckets.getD (hash M (blockno + i)) []) = none := by
        intro i hi
        obtain ⟨k, hk, hik⟩ := List.mem_range'.1 hi
        have hhash : hash M (blockno + i) = blockno % M + i := by
          show (blockno + i) % M = blockno % M + i
          rw [Nat.add_mod, Nat.mod_eq_of_lt (show i < M by omega),
            Nat.mod_eq_of_lt (show blockno % M + i < M by omega)]
        rw [hhash, hne (blockno % M + i) (by omega)]
        rfl
      have hcons : List.range' (M - blockno % M) (blockno % M) =
          (M - blockno % M) :: List.range' (M - blockno % M + 1)
            (blockno % M - 1) := by
        have h1 := List.range'_succ (M - blockno % M) (blockno % M - 1) 1
        rw [show blockno % M - 1 + 1 = blockno % M by omega] at h1
        exact h1
      have hh0 : hash M (blockno + (M - blockno % M)) = 0 := by
        show (blockno + (M - blockno % M)) % M = 0
        rw [Nat.add_mod, Nat.mod_eq_of_lt (show M - blockno % M < M by omega),
          show blockno % M + (M - blockno % M) = M by omega, Nat.mod_self]
      have hrev : (List.range N).reverse =
          (N - 1) :: (List.range (N - 1)).reverse := by
        have h2 : List.range N = List.range (N - 1) ++ [N - 1] := by
          obtain ⟨N2, rfl⟩ : ∃ N2, N = N2 + 1 := ⟨N - 1, by omega⟩
          simp [List.range_succ]
        rw [h2, List.reverse_append]
        simp
      have hff : findFree (binit M N).bufs
          ((binit M N).buckets.getD
            (hash M (blockno + (M - blockno % M))) []) = some (N - 1) := by
        rw [hh0, show (binit M N).buckets.getD 0 [] = (List.range N).reverse
          from h0, hrev]
        have hfree : isFree (binit M N).bufs (N - 1) := by
          show ((List.replicate N buf0).getD (N - 1) buf0).refcnt = 0
          rw [getD_replicate]
          rfl
        simp [findFree, hfree]
      unfold bget
      rw [hfm', hff', ← hsplit,
        @bgetSteal_skip_all M dev blockno (binit M N)
          (List.range' 1 (M - blockno % M - 1))
          (List.range' (M - blockno % M) (blockno % M)) hc1 hf1,
        hcons]
      exact bgetSteal_cons_hit (hash_ne_add (by omega) (by omega)) hff
    · have hblk : hash M (((binit M N).bufs.getD (N - 1) buf0).blockno) = 0 := by
        show hash M (((List.replicate N buf0).getD (N - 1) buf0).blockno) = 0
        rw [getD_replicate]
        exact Nat.zero_mod M
      have hrem0 : remove M (binit M N).bufs (binit M N).buckets (N - 1) =
          (binit M N).buckets.set 0
            (removeFirst (N - 1) ((binit M N).buckets.getD 0 [])) := by
        simp only [remove]
        rw [hblk]
      rw [hrem0]
      simp only [put]
      rw [getD_set_ne _ _ _ hh, hemp, getD_set_self, List.length_set]
      rw [hlen, if_pos (hash_lt hM blockno)]

/-- Witness for C10: on the freshly initialized pool (2 buckets, 4 slots),
the first acquire of block 5 (bucket 1, empty) steals slot 3 out of bucket 0
and the target bucket afterwards holds exactly [3]. -/
theorem C10_witness :
    bget 2 0 5 (binit 2 4) = .ok (3,
      ⟨(binit 2 4).bufs.set 3 ⟨0, 5, 0, 1, true⟩,
       put 2 5 3 (remove 2 (binit 2 4).bufs (binit 2 4).buckets 3)⟩) ∧
    (put 2 5 3 (remove 2 (binit 2 4).bufs (binit 2 4).buckets 3)).getD
      (hash 2 5) [] = [3] :=
  ⟨((C10_binit 2 4 (by decide) (by decide)).2 0 5 (by decide)).2.2.1,
   ((C10_binit 2 4 (by decide) (by decide)).2 0 5 (by decide)).2.2.2⟩

/-- Witness for C8: slot with refcount 1, lock held: pin gives 2, release
gives 1 with the lock free, unpin gives 0. -/
theorem C8_witness :
    ((bpin ⟨[⟨1, 2, 1, 1, true⟩], [[0], []]⟩ 0).bufs.getD 0 buf0).refcnt = 2 ∧
    brelse (bpin ⟨[⟨1, 2, 1, 1, true⟩], [[0], []]⟩ 0) 0 =
      .ok ⟨(bpin ⟨[⟨1, 2, 1, 1, true⟩], [[0], []]⟩ 0).bufs.set 0
        ⟨1, 2, 1, 1, false⟩, [[0], []]⟩ ∧
    ((bunpin ⟨(bpin ⟨[⟨1, 2, 1, 1, true⟩], [[0], []]⟩ 0).bufs.set 0
        ⟨1, 2, 1, 1, false⟩, [[0], []]⟩ 0).bufs.getD 0 buf0).refcnt = 0 :=
  (C8_pin_unpin ⟨[⟨1, 2, 1, 1, true⟩], [[0], []]⟩ 0).2.2
    (by decide) (by decide) (by decide)

end Bio
